import Mathlib

/-!
Verification of the family-tree relationship engine.

The definitions below are a shallow embedding of the relationship
calculator (`src/lib/relationships/calculator.ts`) and of the
path finder (`src/contexts/FamilyTreeContext.tsx`).  Individuals and
family units are kept in association lists keyed by id strings, which
models the JavaScript `Record<string, _>` objects together with the
insertion order of the `Map` used for ancestor depths.  The unbounded
`while` loops of the source are modelled with an explicit fuel that is
provably sufficient (see the stabilisation theorems), so every
definition is executable.
-/

namespace FamilyTree

/-- Biological sex marker (`'M' | 'F' | 'U'` in the source). -/
inductive Sex where
  | M
  | F
  | U
deriving DecidableEq, Repr

/-- The fields of an `Individual` that the relationship engine reads.
Name, dates, photos and similar display data never influence the
calculator and are omitted. -/
structure Individual where
  sex : Sex
  familyAsSpouse : List String
  familyAsChild : Option String
deriving DecidableEq, Repr

/-- A family unit: optional husband and wife ids plus an ordered list of
child ids. -/
structure Family where
  husband : Option String
  wife : Option String
  children : List String
deriving DecidableEq, Repr

/-- The graph snapshot handed to the calculator: the two keyed
collections of the `FamilyTreeData` shape. -/
structure FamilyTreeData where
  individuals : List (String × Individual)
  families : List (String × Family)
deriving DecidableEq, Repr

/-- Association-list lookup, modelling `record[id]` on a JS object. -/
def lookupA {α : Type} : List (String × α) → String → Option α
  | [], _ => none
  | (k, v) :: rest, key => if key = k then some v else lookupA rest key

/-- `data.individuals[id]`. -/
def lookupInd (g : FamilyTreeData) (id : String) : Option Individual :=
  lookupA g.individuals id

/-- `data.families[id]`. -/
def lookupFam (g : FamilyTreeData) (id : String) : Option Family :=
  lookupA g.families id

/-- Whether an association list already has a binding for `key`
(`map.has(key)` on the JS `Map`). -/
def containsKey {α : Type} : List (String × α) → String → Bool
  | [], _ => false
  | (k, _) :: rest, key => if key = k then true else containsKey rest key

/-- The discriminated union `RelationshipType` of the source. -/
inductive Lineage where
  | direct
  | step
deriving DecidableEq, Repr

/-- One variant per `type` tag of the source's `RelationshipType`. -/
inductive RelationshipType where
  | self
  | parent (generations : Nat) (lineage : Lineage)
  | child (generations : Nat) (lineage : Lineage)
  | sibling (half : Bool)
  | spouse
  | uncleAunt (great : Nat)
  | nephewNiece (great : Nat)
  | cousin (degree : Nat) (removed : Nat)
  | inLaw (baseRelation : RelationshipType)
  | step (baseRelation : RelationshipType)
  | unknown
deriving DecidableEq, Repr

/-- `PathStep.relation` values. -/
inductive PathRelKind where
  | parent
  | child
  | spouse
  | sibling
deriving DecidableEq, Repr

/-- `PathStep.direction` values. -/
inductive PathDirection where
  | up
  | down
  | lateral
deriving DecidableEq, Repr

/-- A step of the `path` field of a result. -/
structure PathStep where
  personId : String
  relation : PathRelKind
  direction : PathDirection
deriving DecidableEq, Repr

/-- The result record `RelationshipPath` of the source. -/
structure RelationshipPath where
  fromId : String
  toId : String
  path : List PathStep
  relationship : RelationshipType
  label : String
deriving DecidableEq, Repr

/-- `s.repeat n` for strings: `n` copies of `s` concatenated. -/
def repeatS (s : String) : Nat → String
  | 0 => ""
  | n + 1 => s ++ repeatS s n

/-- `Math.abs(a - b)` on the natural depths of the source. -/
def absDiff (a b : Nat) : Nat := if a ≤ b then b - a else a - b

/-- The ordinal table of `getOrdinal`: `ordinals[n] || n + 'th'`.
Index 0 of the source array is the empty string, which is falsy, so 0
also falls through to `"0th"`. -/
def getOrdinal (n : Nat) : String :=
  if n = 1 then "1st"
  else if n = 2 then "2nd"
  else if n = 3 then "3rd"
  else if n = 4 then "4th"
  else if n = 5 then "5th"
  else if n = 6 then "6th"
  else if n = 7 then "7th"
  else if n = 8 then "8th"
  else if n = 9 then "9th"
  else if n = 10 then "10th"
  else toString n ++ "th"

/-- The other side of a family with respect to `who`:
`family.husband === who ? family.wife : family.wife === who ? family.husband : null`. -/
def spouseInFamily (who : String) (fam : Family) : Option String :=
  if fam.husband = some who then fam.wife
  else if fam.wife = some who then fam.husband
  else none

/-- The `{ type: 'self' }` result. -/
def selfResult (f t : String) : RelationshipPath :=
  ⟨f, t, [], RelationshipType.self, "Self"⟩

/-- The `{ type: 'unknown' }` final fall-through result. -/
def unknownResult (f t : String) : RelationshipPath :=
  ⟨f, t, [], RelationshipType.unknown, "Unknown Relation"⟩

/-- `checkSpouseRelationship`: scan `fromId`'s `familyAsSpouse` units for
`toId` in the opposing spouse slot. -/
def spouseLoop (g : FamilyTreeData) (f t : String) : List String → Option RelationshipPath
  | [] => none
  | fid :: rest =>
    match lookupFam g fid with
    | none => spouseLoop g f t rest
    | some fam =>
      if spouseInFamily f fam = some t then
        some ⟨f, t, [⟨t, PathRelKind.spouse, PathDirection.lateral⟩],
          RelationshipType.spouse,
          match lookupInd g t with
          | some p =>
            match p.sex with
            | Sex.M => "Husband"
            | Sex.F => "Wife"
            | Sex.U => "Spouse"
          | none => "Spouse"⟩
      else spouseLoop g f t rest

/-- `checkSpouseRelationship(fromId, toId)`. -/
def checkSpouseRelationship (g : FamilyTreeData) (f t : String) : Option RelationshipPath :=
  match lookupInd g f with
  | none => none
  | some fp => spouseLoop g f t fp.familyAsSpouse

/-- The parents pushed by the ancestor walk for `id`: the husband and
wife (in this order) of the resolved `familyAsChild` unit; every failed
lookup degrades to the empty list. -/
def parentsOf (g : FamilyTreeData) (id : String) : List String :=
  match lookupInd g id with
  | none => []
  | some p =>
    match p.familyAsChild with
    | none => []
    | some fid =>
      match lookupFam g fid with
      | none => []
      | some fam => fam.husband.toList ++ fam.wife.toList

/-- The `while (queue.length > 0)` loop of `findAncestorsWithDepth`,
with explicit fuel.  Each pop skips already-recorded ids and otherwise
records the id at its depth and pushes both parents at depth + 1. -/
def ancestorsLoop (g : FamilyTreeData) : Nat → List (String × Nat) → List (String × Nat) → List (String × Nat)
  | 0, _, acc => acc
  | _ + 1, [], acc => acc
  | fuel + 1, (id, depth) :: rest, acc =>
    if containsKey acc id then ancestorsLoop g fuel rest acc
    else ancestorsLoop g fuel (rest ++ (parentsOf g id).map (fun h => (h, depth + 1)))
      (acc ++ [(id, depth)])

/-- Candidate ids the ancestor walk can ever enqueue: the start plus
every husband/wife slot of every family unit. -/
def ancCands (g : FamilyTreeData) (p : String) : List String :=
  p :: g.families.flatMap (fun kv => kv.2.husband.toList ++ kv.2.wife.toList)

/-- Sufficient fuel for the ancestor walk. -/
def ancFuel (g : FamilyTreeData) (p : String) : Nat :=
  2 * (ancCands g p).length + 1

/-- `findAncestorsWithDepth(personId)`: the insertion-ordered map from
visited ancestor ids to their minimum depth. -/
def findAncestorsWithDepth (g : FamilyTreeData) (p : String) : List (String × Nat) :=
  ancestorsLoop g (ancFuel g p) [(p, 0)] []

/-- A nearest-common-ancestor candidate with its two depths. -/
structure CommonAncestor where
  ancestorId : String
  fromDepth : Nat
  toDepth : Nat
deriving DecidableEq, Repr

/-- `totalDepth < minTotalDepth`, where the running minimum is the
total depth of the best candidate so far (infinity when none). -/
def ncaBetter (best : Option CommonAncestor) (fd td : Nat) : Bool :=
  match best with
  | none => true
  | some b => decide (fd + td < b.fromDepth + b.toDepth)

/-- The scan of `findNearestCommonAncestor`: iterate the from-map in
insertion order and keep the first entry of strictly smaller total
depth. -/
def ncaLoop (toA : List (String × Nat)) : List (String × Nat) → Option CommonAncestor → Option CommonAncestor
  | [], best => best
  | (id, fd) :: rest, best =>
    match lookupA toA id with
    | none => ncaLoop toA rest best
    | some td =>
      ncaLoop toA rest (if ncaBetter best fd td then some ⟨id, fd, td⟩ else best)

/-- `findNearestCommonAncestor(fromAncestors, toAncestors)`. -/
def findNearestCommonAncestor (fromA toA : List (String × Nat)) : Option CommonAncestor :=
  ncaLoop toA fromA none

/-- `toPerson?.sex || 'U'`: the sex used to gender labels. -/
def sexOf (g : FamilyTreeData) (t : String) : Sex :=
  match lookupInd g t with
  | some p => p.sex
  | none => Sex.U

/-- `checkHalfSibling(personId1, personId2)`. -/
def checkHalfSibling (g : FamilyTreeData) (p1 p2 : String) : Bool :=
  match lookupInd g p1 with
  | none => false
  | some person1 =>
    match lookupInd g p2 with
    | none => false
    | some person2 =>
      match person1.familyAsChild, person2.familyAsChild with
      | none, _ => false
      | _, none => false
      | some c1, some c2 =>
        if c1 ≠ c2 then true
        else
          match lookupFam g c1 with
          | none => true
          | some fam => fam.husband.isNone || fam.wife.isNone

/-- `createAncestorRelation`. -/
def createAncestorRelation (f t : String) (generations : Nat) (sex : Sex) : RelationshipPath :=
  let label :=
    if generations = 1 then
      match sex with
      | Sex.M => "Father"
      | Sex.F => "Mother"
      | Sex.U => "Parent"
    else if generations = 2 then
      match sex with
      | Sex.M => "Grandfather"
      | Sex.F => "Grandmother"
      | Sex.U => "Grandparent"
    else
      let pre := repeatS "Great-" (generations - 2)
      match sex with
      | Sex.M => pre ++ "Grandfather"
      | Sex.F => pre ++ "Grandmother"
      | Sex.U => pre ++ "Grandparent"
  ⟨f, t, [], RelationshipType.parent generations Lineage.direct, label⟩

/-- `createDescendantRelation`. -/
def createDescendantRelation (f t : String) (generations : Nat) (sex : Sex) : RelationshipPath :=
  let label :=
    if generations = 1 then
      match sex with
      | Sex.M => "Son"
      | Sex.F => "Daughter"
      | Sex.U => "Child"
    else if generations = 2 then
      match sex with
      | Sex.M => "Grandson"
      | Sex.F => "Granddaughter"
      | Sex.U => "Grandchild"
    else
      let pre := repeatS "Great-" (generations - 2)
      match sex with
      | Sex.M => pre ++ "Grandson"
      | Sex.F => pre ++ "Granddaughter"
      | Sex.U => pre ++ "Grandchild"
  ⟨f, t, [], RelationshipType.child generations Lineage.direct, label⟩

/-- `createCousinRelation`. -/
def createCousinRelation (f t : String) (degree removed : Nat) : RelationshipPath :=
  let removedSuffix := if 0 < removed then " " ++ toString removed ++ "x Removed" else ""
  ⟨f, t, [], RelationshipType.cousin degree removed, getOrdinal degree ++ " Cousin" ++ removedSuffix⟩

/-- `calculateBloodRelationship(fromId, toId, commonAncestor)`: the
eight-way classification on the two depths, with the "Distant Relative"
fall-through. -/
def calculateBloodRelationship (g : FamilyTreeData) (f t : String) (ca : CommonAncestor) : RelationshipPath :=
  let fd := ca.fromDepth
  let td := ca.toDepth
  let sex := sexOf g t
  if td = 0 ∧ 0 < fd then createAncestorRelation f t fd sex
  else if fd = 0 ∧ 0 < td then createDescendantRelation f t td sex
  else if fd = 1 ∧ td = 1 then
    let isHalf := checkHalfSibling g f t
    ⟨f, t, [], RelationshipType.sibling isHalf,
      if isHalf then
        match sex with
        | Sex.M => "Half-Brother"
        | Sex.F => "Half-Sister"
        | Sex.U => "Half-Sibling"
      else
        match sex with
        | Sex.M => "Brother"
        | Sex.F => "Sister"
        | Sex.U => "Sibling"⟩
  else if fd = 2 ∧ td = 1 then
    ⟨f, t, [], RelationshipType.uncleAunt 0,
      match sex with
      | Sex.M => "Uncle"
      | Sex.F => "Aunt"
      | Sex.U => "Uncle/Aunt"⟩
  else if 2 < fd ∧ td = 1 then
    let greatCount := fd - 2
    let pre := repeatS "Great-" greatCount
    ⟨f, t, [], RelationshipType.uncleAunt greatCount,
      match sex with
      | Sex.M => pre ++ "Uncle"
      | Sex.F => pre ++ "Aunt"
      | Sex.U => pre ++ "Uncle/Aunt"⟩
  else if fd = 1 ∧ td = 2 then
    ⟨f, t, [], RelationshipType.nephewNiece 0,
      match sex with
      | Sex.M => "Nephew"
      | Sex.F => "Niece"
      | Sex.U => "Nephew/Niece"⟩
  else if fd = 1 ∧ 2 < td then
    let greatCount := td - 2
    let pre := repeatS "Great-" greatCount
    ⟨f, t, [], RelationshipType.nephewNiece greatCount,
      match sex with
      | Sex.M => pre ++ "Nephew"
      | Sex.F => pre ++ "Niece"
      | Sex.U => pre ++ "Nephew/Niece"⟩
  else if 2 ≤ fd ∧ 2 ≤ td then
    createCousinRelation f t (min fd td - 1) (absDiff fd td)
  else
    ⟨f, t, [], RelationshipType.unknown, "Distant Relative"⟩

/-- Label for a sibling-in-law, gendered by the optional target person. -/
def siblingInLawLabel (tp : Option Individual) : String :=
  match tp with
  | some p =>
    match p.sex with
    | Sex.M => "Brother-in-law"
    | Sex.F => "Sister-in-law"
    | Sex.U => "Sibling-in-law"
  | none => "Sibling-in-law"

/-- Whether some list element equals `t` while differing from the
spouse id: the `siblingId === toId && siblingId !== spouseId` scan. -/
def anyChildIs (t sp : String) : List String → Bool
  | [] => false
  | c :: rest => if c = t ∧ c ≠ sp then true else anyChildIs t sp rest

/-- First loop of `checkInLawRelationship`: for each of `fromId`'s
marriages in order, test whether `toId` is that spouse's parent, then
whether `toId` is that spouse's sibling. -/
def inLawSpouseLoop (g : FamilyTreeData) (f t : String) : List String → Option RelationshipPath
  | [] => none
  | fid :: rest =>
    match lookupFam g fid with
    | none => inLawSpouseLoop g f t rest
    | some fam =>
      match spouseInFamily f fam with
      | none => inLawSpouseLoop g f t rest
      | some spouseId =>
        match lookupInd g spouseId with
        | none => inLawSpouseLoop g f t rest
        | some spouse =>
          match spouse.familyAsChild with
          | none => inLawSpouseLoop g f t rest
          | some sfid =>
            match lookupFam g sfid with
            | none => inLawSpouseLoop g f t rest
            | some spouseParentFamily =>
              match lookupInd g t with
              | none => inLawSpouseLoop g f t rest
              | some toPerson =>
                if spouseParentFamily.husband = some t ∨ spouseParentFamily.wife = some t then
                  some ⟨f, t, [],
                    RelationshipType.inLaw (RelationshipType.parent 1 Lineage.direct),
                    match toPerson.sex with
                    | Sex.M => "Father-in-law"
                    | Sex.F => "Mother-in-law"
                    | Sex.U => "Parent-in-law"⟩
                else if anyChildIs t spouseId spouseParentFamily.children then
                  some ⟨f, t, [],
                    RelationshipType.inLaw (RelationshipType.sibling false),
                    siblingInLawLabel (some toPerson)⟩
                else inLawSpouseLoop g f t rest

/-- Whether `who` has `t` as the other side of one of the listed
marriage units. -/
def anySpouseIs (g : FamilyTreeData) (who t : String) : List String → Bool
  | [] => false
  | fid :: rest =>
    match lookupFam g fid with
    | none => anySpouseIs g who t rest
    | some fam =>
      if spouseInFamily who fam = some t then true else anySpouseIs g who t rest

/-- Third case of `checkInLawRelationship`: `toId` is the spouse of one
of `fromId`'s siblings. -/
def anySiblingSpouseIs (g : FamilyTreeData) (f t : String) : List String → Bool
  | [] => false
  | sib :: rest =>
    if sib = f then anySiblingSpouseIs g f t rest
    else
      match lookupInd g sib with
      | none => anySiblingSpouseIs g f t rest
      | some sibling =>
        if anySpouseIs g sib t sibling.familyAsSpouse then true
        else anySiblingSpouseIs g f t rest

/-- Fourth case of `checkInLawRelationship`: `toId` is the spouse of a
child of one of `fromId`'s marriages. -/
def anyChildSpouseIs (g : FamilyTreeData) (t : String) : List String → Bool
  | [] => false
  | childId :: rest =>
    match lookupInd g childId with
    | none => anyChildSpouseIs g t rest
    | some child =>
      if anySpouseIs g childId t child.familyAsSpouse then true
      else anyChildSpouseIs g t rest

/-- Scan over `fromId`'s marriages for the child-in-law case. -/
def childInLawLoop (g : FamilyTreeData) (t : String) : List String → Bool
  | [] => false
  | fid :: rest =>
    match lookupFam g fid with
    | none => childInLawLoop g t rest
    | some fam =>
      if anyChildSpouseIs g t fam.children then true else childInLawLoop g t rest

/-- `checkInLawRelationship(fromId, toId)`: spouse's parent / spouse's
sibling (interleaved per marriage), then sibling's spouse, then child's
spouse. -/
def checkInLawRelationship (g : FamilyTreeData) (f t : String) : Option RelationshipPath :=
  match lookupInd g f with
  | none => none
  | some fromPerson =>
    match inLawSpouseLoop g f t fromPerson.familyAsSpouse with
    | some r => some r
    | none =>
      let siblingCase :=
        match fromPerson.familyAsChild with
        | none => false
        | some cfid =>
          match lookupFam g cfid with
          | none => false
          | some fromParentFamily => anySiblingSpouseIs g f t fromParentFamily.children
      if siblingCase then
        some ⟨f, t, [], RelationshipType.inLaw (RelationshipType.sibling false),
          siblingInLawLabel (lookupInd g t)⟩
      else if childInLawLoop g t fromPerson.familyAsSpouse then
        some ⟨f, t, [], RelationshipType.inLaw (RelationshipType.child 1 Lineage.direct),
          match lookupInd g t with
          | some p =>
            match p.sex with
            | Sex.M => "Son-in-law"
            | Sex.F => "Daughter-in-law"
            | Sex.U => "Child-in-law"
          | none => "Child-in-law"⟩
      else none

/-- `findRelationship(fromId, toId, true)`: the body of the calculator
with the spouse-blood-relative fallback disabled, exactly what the
recursion guard produces. -/
def findRelationshipSkip (g : FamilyTreeData) (f t : String) : RelationshipPath :=
  if f = t then selfResult f t
  else
    match checkSpouseRelationship g f t with
    | some r => r
    | none =>
      match findNearestCommonAncestor (findAncestorsWithDepth g f) (findAncestorsWithDepth g t) with
      | some ca => calculateBloodRelationship g f t ca
      | none =>
        match checkInLawRelationship g f t with
        | some r => r
        | none => unknownResult f t

/-- `type !== 'unknown' && type !== 'self'` check of the fallback. -/
def isUnknownOrSelf : RelationshipType → Bool
  | RelationshipType.unknown => true
  | RelationshipType.self => true
  | _ => false

/-- Loop of `checkSpouseBloodRelatives`: for each marriage, compute the
spouse's relationship to `toId` with the recursion guard engaged and
keep the first named one, prefixing the label with `"Spouse's "`. -/
def spouseBloodLoop (g : FamilyTreeData) (f t : String) : List String → Option RelationshipPath
  | [] => none
  | fid :: rest =>
    match lookupFam g fid with
    | none => spouseBloodLoop g f t rest
    | some fam =>
      match spouseInFamily f fam with
      | none => spouseBloodLoop g f t rest
      | some spouseId =>
        let r := findRelationshipSkip g spouseId t
        if isUnknownOrSelf r.relationship then spouseBloodLoop g f t rest
        else some ⟨f, t, r.path, r.relationship, "Spouse's " ++ r.label⟩

/-- `checkSpouseBloodRelatives(fromId, toId)`. -/
def checkSpouseBloodRelatives (g : FamilyTreeData) (f t : String) : Option RelationshipPath :=
  match lookupInd g f with
  | none => none
  | some fp => spouseBloodLoop g f t fp.familyAsSpouse

/-- The body of `findRelationship` with the fallback enabled (the
`skipSpouseCheck = false` behaviour). -/
def findRelationshipFull (g : FamilyTreeData) (f t : String) : RelationshipPath :=
  if f = t then selfResult f t
  else
    match checkSpouseRelationship g f t with
    | some r => r
    | none =>
      match findNearestCommonAncestor (findAncestorsWithDepth g f) (findAncestorsWithDepth g t) with
      | some ca => calculateBloodRelationship g f t ca
      | none =>
        match checkInLawRelationship g f t with
        | some r => r
        | none =>
          match checkSpouseBloodRelatives g f t with
          | some r => r
          | none => unknownResult f t

/-- `findRelationship(fromId, toId, skipSpouseCheck)`.  The boolean
guard decides whether the spouse-blood-relative fallback may run; the
recursive call inside the fallback always passes `true`, which is the
`findRelationshipSkip` body. -/
def findRelationship (g : FamilyTreeData) (f t : String) (skipSpouseCheck : Bool) : RelationshipPath :=
  if skipSpouseCheck then findRelationshipSkip g f t else findRelationshipFull g f t

/-- `getConnectedPeople(personId)` of the path finder: parents and
siblings through `familyAsChild`, then spouses and children through
every `familyAsSpouse` unit. -/
def getConnectedPeople (g : FamilyTreeData) (personId : String) : List String :=
  match lookupInd g personId with
  | none => []
  | some person =>
    let parentPart :=
      match person.familyAsChild with
      | none => []
      | some fid =>
        match lookupFam g fid with
        | none => []
        | some fam =>
          fam.husband.toList ++ fam.wife.toList ++ fam.children.filter (fun c => c ≠ personId)
    let spousePart := person.familyAsSpouse.flatMap (fun fid =>
      match lookupFam g fid with
      | none => []
      | some fam =>
        (fam.husband.toList.filter (fun h => h ≠ personId)) ++
          (fam.wife.toList.filter (fun w => w ≠ personId)) ++ fam.children)
    parentPart ++ spousePart

/-- The BFS loop of `findRelationshipPath`, with explicit fuel.  Each
queue entry carries the id list walked so far; discovering `toId` among
a popped node's neighbours returns immediately. -/
def pathLoop (g : FamilyTreeData) (t : String) : Nat → List (String × List String) → List String → List String
  | 0, _, _ => []
  | _ + 1, [], _ => []
  | fuel + 1, (id, path) :: rest, visited =>
    if id ∈ visited then pathLoop g t fuel rest visited
    else
      let visited' := id :: visited
      let connected := getConnectedPeople g id
      if t ∈ connected then path ++ [t]
      else
        pathLoop g t fuel
          (rest ++ (connected.filter (fun c => c ∉ visited')).map (fun c => (c, path ++ [c])))
          visited'

/-- Candidate ids the path BFS can ever enqueue. -/
def pathCands (g : FamilyTreeData) (f : String) : List String :=
  f :: g.families.flatMap (fun kv => kv.2.husband.toList ++ kv.2.wife.toList ++ kv.2.children)

/-- Sufficient fuel for the path BFS. -/
def pathFuel (g : FamilyTreeData) (f : String) : Nat :=
  1 + ((pathCands g f).map (fun c => 1 + (getConnectedPeople g c).length)).sum

/-- `findRelationshipPath(fromId, toId)` of the family-tree context. -/
def findRelationshipPath (g : FamilyTreeData) (f t : String) : List String :=
  if f = t then [f] else pathLoop g t (pathFuel g f) [(f, [f])] []

/-! ### Basic association-list lemmas -/

theorem lookupA_mem {α : Type} {l : List (String × α)} {k : String} {v : α}
    (h : lookupA l k = some v) : (k, v) ∈ l := by
  induction l with
  | nil => simp [lookupA] at h
  | cons e rest ih =>
    obtain ⟨k', v'⟩ := e
    by_cases hk : k = k'
    · subst hk
      simp [lookupA] at h
      subst h
      exact List.mem_cons_self _ _
    · simp [lookupA, hk] at h
      exact List.mem_cons_of_mem _ (ih h)

theorem mem_lookupA {α : Type} {l : List (String × α)} {k : String} {v : α}
    (nd : l.Pairwise (fun a b => a.1 ≠ b.1)) (h : (k, v) ∈ l) : lookupA l k = some v := by
  induction l with
  | nil => simp at h
  | cons e rest ih =>
    obtain ⟨k', v'⟩ := e
    rcases List.mem_cons.mp h with h1 | h1
    · obtain ⟨hk, hv⟩ := Prod.mk.injEq .. ▸ h1
      simp at h1
      simp [lookupA, h1.1, h1.2]
    · rcases List.pairwise_cons.mp nd with ⟨hne, nd'⟩
      have : k ≠ k' := by
        intro hkk
        exact hne (k, v) h1 (by simp [hkk])
      simp [lookupA, this]
      exact ih nd' h1

theorem containsKey_eq_isSome {α : Type} (l : List (String × α)) (k : String) :
    containsKey l k = (lookupA l k).isSome := by
  induction l with
  | nil => simp [containsKey, lookupA]
  | cons e rest ih =>
    obtain ⟨k', v'⟩ := e
    by_cases hk : k = k' <;> simp [containsKey, lookupA, hk, ih]

theorem containsKey_false_not_mem {α : Type} {l : List (String × α)} {k : String}
    (h : containsKey l k = false) : ∀ v : α, (k, v) ∉ l := by
  intro v hm
  induction l with
  | nil => simp at hm
  | cons e rest ih =>
    obtain ⟨k', v'⟩ := e
    by_cases hk : k = k'
    · simp [containsKey, hk] at h
    · simp [containsKey, hk] at h
      rcases List.mem_cons.mp hm with h1 | h1
      · exact hk (by simpa using congrArg Prod.fst h1)
      · exact ih h h1

theorem containsKey_true_exists {α : Type} {l : List (String × α)} {k : String}
    (h : containsKey l k = true) : ∃ v : α, (k, v) ∈ l := by
  rw [containsKey_eq_isSome] at h
  obtain ⟨v, hv⟩ := Option.isSome_iff_exists.mp h
  exact ⟨v, lookupA_mem hv⟩

theorem containsKey_append {α : Type} (l1 l2 : List (String × α)) (k : String) :
    containsKey (l1 ++ l2) k = (containsKey l1 k || containsKey l2 k) := by
  induction l1 with
  | nil => simp [containsKey]
  | cons e rest ih =>
    obtain ⟨k', v'⟩ := e
    by_cases hk : k = k' <;> simp [containsKey, hk, ih]

theorem length_filter_ne_lt {l : List String} {a : String} (h : a ∈ l) :
    (l.filter (fun x => x ≠ a)).length < l.length := by
  induction l with
  | nil => simp at h
  | cons b rest ih =>
    by_cases hb : b = a
    · subst hb
      simp only [List.filter_cons]
      have : (decide (b ≠ b)) = false := by simp
      simp only [this, if_neg]
      simp
      exact Nat.lt_succ_of_le (List.length_filter_le _ _)
    · have ha : a ∈ rest := by
        rcases List.mem_cons.mp h with h1 | h1
        · exact absurd h1.symm hb
        · exact h1
      simp only [List.filter_cons]
      have : (decide (b ≠ a)) = true := by simp [hb]
      simp only [this, if_pos]
      simpa using Nat.succ_lt_succ (ih ha)

/-! ### Reachability along parent links -/

/-- `reachN g p x n`: `x` is reachable from `p` in exactly `n` parent
hops along `parentsOf`. -/
def reachN (g : FamilyTreeData) (p : String) : String → Nat → Prop
  | x, 0 => x = p
  | x, n + 1 => ∃ y, reachN g p y n ∧ x ∈ parentsOf g y

/-! ### Termination and correctness of the ancestor walk -/

theorem ancestorsLoop_nil (g : FamilyTreeData) (fuel : Nat) (acc : List (String × Nat)) :
    ancestorsLoop g fuel [] acc = acc := by
  cases fuel <;> rfl

/-- Unvisited candidate count for the ancestor walk's measure. -/
def ancMissing (g : FamilyTreeData) (p : String) (acc : List (String × Nat)) : Nat :=
  ((ancCands g p).filter (fun c => !(containsKey acc c))).length

/-- Decreasing measure of the ancestor walk. -/
def ancMeasure (g : FamilyTreeData) (p : String) (q acc : List (String × Nat)) : Nat :=
  q.length + 2 * ancMissing g p acc

theorem parentsOf_length_le (g : FamilyTreeData) (id : String) :
    (parentsOf g id).length ≤ 2 := by
  unfold parentsOf
  cases hind : lookupInd g id with
  | none => simp
  | some per =>
    cases hfac : per.familyAsChild with
    | none => simp [hfac]
    | some fid =>
      cases hfam : lookupFam g fid with
      | none => simp [hfac, hfam]
      | some fam =>
        simp only [hfac, hfam, List.length_append]
        cases fam.husband <;> cases fam.wife <;> simp [Option.toList]

theorem parentsOf_sub_cands (g : FamilyTreeData) (p id : String) :
    ∀ x ∈ parentsOf g id, x ∈ ancCands g p := by
  intro x hx
  unfold parentsOf at hx
  cases hind : lookupInd g id with
  | none => simp [hind] at hx
  | some per =>
    cases hfac : per.familyAsChild with
    | none => simp [hind, hfac] at hx
    | some fid =>
      cases hfam : lookupFam g fid with
      | none => simp [hind, hfac, hfam] at hx
      | some fam =>
        simp only [hind, hfac, hfam] at hx
        have hmem : (fid, fam) ∈ g.families := lookupA_mem hfam
        unfold ancCands
        exact List.mem_cons_of_mem _ (List.mem_flatMap.mpr ⟨(fid, fam), hmem, hx⟩)

theorem ancMissing_decrease (g : FamilyTreeData) (p id : String) (d : Nat)
    (acc : List (String × Nat)) (hc : id ∈ ancCands g p)
    (hnc : containsKey acc id = false) :
    ancMissing g p (acc ++ [(id, d)]) < ancMissing g p acc := by
  unfold ancMissing
  have hpt : ∀ c : String,
      (!(containsKey (acc ++ [(id, d)]) c)) = ((decide (c ≠ id)) && (!(containsKey acc c))) := by
    intro c
    rw [containsKey_append]
    by_cases hcid : c = id
    · subst hcid
      simp [containsKey]
    · simp [containsKey, hcid]
  have hflt : (ancCands g p).filter (fun c => !(containsKey (acc ++ [(id, d)]) c)) =
      ((ancCands g p).filter (fun c => !(containsKey acc c))).filter (fun c => c ≠ id) := by
    rw [List.filter_filter]
    exact List.filter_congr (fun c _ => hpt c)
  rw [hflt]
  apply length_filter_ne_lt
  exact List.mem_filter.mpr ⟨hc, by simp [hnc]⟩

theorem ancestorsLoop_stable (g : FamilyTreeData) (p : String) :
    ∀ fuel q acc, (∀ e ∈ q, e.1 ∈ ancCands g p) → ancMeasure g p q acc ≤ fuel →
      ∀ k, ancestorsLoop g (fuel + k) q acc = ancestorsLoop g fuel q acc := by
  intro fuel
  induction fuel with
  | zero =>
    intro q acc _ hM k
    have hq : q = [] := by
      unfold ancMeasure at hM
      exact List.length_eq_zero.mp (Nat.le_zero.mp (Nat.le_trans (Nat.le_add_right _ _) hM))
    subst hq
    rw [ancestorsLoop_nil, ancestorsLoop_nil]
  | succ fuel ih =>
    intro q acc hq hM k
    match q with
    | [] => rw [ancestorsLoop_nil, ancestorsLoop_nil]
    | (id, depth) :: rest =>
      have hrest : ∀ e ∈ rest, e.1 ∈ ancCands g p := fun e he => hq e (List.mem_cons_of_mem _ he)
      have hstep : fuel + 1 + k = (fuel + k) + 1 := by omega
      rw [hstep]
      by_cases hck : containsKey acc id = true
      · simp only [ancestorsLoop, hck, if_pos]
        apply ih rest acc hrest
        unfold ancMeasure at hM ⊢
        simp at hM
        omega
      · have hck' : containsKey acc id = false := by simpa using hck
        simp only [ancestorsLoop, hck', Bool.false_eq_true, if_neg, not_false_iff]
        apply ih _ _ (by
          intro e he
          rcases List.mem_append.mp he with h1 | h1
          · exact hrest e h1
          · obtain ⟨z, hz, hze⟩ := List.mem_map.mp h1
            rw [← hze]
            exact parentsOf_sub_cands g p id z hz)
        have hdec := ancMissing_decrease g p id depth acc
          (by simpa using hq (id, depth) (List.mem_cons_self _ _)) hck'
        unfold ancMeasure at hM ⊢
        have hlen : ((parentsOf g id).map (fun h => (h, depth + 1))).length ≤ 2 := by
          rw [List.length_map]
          exact parentsOf_length_le g id
        simp only [List.length_append, List.length_cons] at hM ⊢
        omega

/-- The while loop of the ancestor walk terminates: any extra fuel
beyond the computed bound leaves the result unchanged. -/
theorem findAncestorsWithDepth_stable (g : FamilyTreeData) (p : String) (k : Nat) :
    ancestorsLoop g (ancFuel g p + k) [(p, 0)] [] = findAncestorsWithDepth g p := by
  unfold findAncestorsWithDepth
  apply ancestorsLoop_stable g p (ancFuel g p) [(p, 0)] []
  · intro e he
    simp at he
    rw [he]
    exact List.mem_cons_self _ _
  · unfold ancMeasure ancFuel ancMissing
    have := List.length_filter_le (fun c => !(containsKey ([] : List (String × Nat)) c)) (ancCands g p)
    simp only [List.length_cons, List.length_nil]
    omega

theorem mem_depthMap {l : List String} {d : Nat} {z : String} {dz : Nat} :
    (z, dz) ∈ l.map (fun h => (h, d)) ↔ z ∈ l ∧ dz = d := by
  constructor
  · intro h
    obtain ⟨a, ha, hae⟩ := List.mem_map.mp h
    obtain ⟨h1, h2⟩ := Prod.mk.injEq .. ▸ hae
    constructor
    · exact h1 ▸ ha
    · omega
  · rintro ⟨hz, rfl⟩
    exact List.mem_map.mpr ⟨z, hz, rfl⟩

theorem pairwise_depthMap (l : List String) (d : Nat) :
    (l.map (fun h => (h, d))).Pairwise (fun a b : String × Nat => a.2 ≤ b.2) := by
  induction l with
  | nil => simp
  | cons x rest ih =>
    rw [List.map_cons, List.pairwise_cons]
    refine ⟨?_, ih⟩
    intro b hb
    obtain ⟨hb1, hb2⟩ := mem_depthMap.mp (by exact hb)
    simp [hb2]

/-- Loop invariant of the ancestor walk. -/
structure AncInv (g : FamilyTreeData) (p : String) (q acc : List (String × Nat)) : Prop where
  sortQ : q.Pairwise (fun a b => a.2 ≤ b.2)
  spreadQ : ∀ a ∈ q, ∀ b ∈ q, a.2 ≤ b.2 + 1
  accLe : ∀ a ∈ acc, ∀ e ∈ q, a.2 ≤ e.2
  nbr : ∀ a ∈ acc, ∀ z ∈ parentsOf g a.1,
    (∃ dz, (z, dz) ∈ acc ∧ dz ≤ a.2 + 1) ∨ (∃ dz, (z, dz) ∈ q ∧ dz ≤ a.2 + 1)
  reachAcc : ∀ a ∈ acc, reachN g p a.1 a.2
  reachQ : ∀ e ∈ q, reachN g p e.1 e.2
  zeroA : ∀ a ∈ acc, a.2 = 0 → a.1 = p
  zeroQ : ∀ e ∈ q, e.2 = 0 → e.1 = p
  oneA : ∀ a ∈ acc, a.2 = 1 → a.1 ∈ parentsOf g p
  oneQ : ∀ e ∈ q, e.2 = 1 → e.1 ∈ parentsOf g p
  keyNd : acc.Pairwise (fun a b => a.1 ≠ b.1)
  startI : (p, 0) ∈ acc ∨ (acc = [] ∧ q = [(p, 0)])
  candQ : ∀ e ∈ q, e.1 ∈ ancCands g p

/-- What holds of the finished ancestor map. -/
structure AncFinal (g : FamilyTreeData) (p : String) (accF : List (String × Nat)) : Prop where
  reachA : ∀ a ∈ accF, reachN g p a.1 a.2
  closed : ∀ a ∈ accF, ∀ z ∈ parentsOf g a.1, ∃ dz, (z, dz) ∈ accF ∧ dz ≤ a.2 + 1
  startF : (p, 0) ∈ accF
  zeroF : ∀ a ∈ accF, a.2 = 0 → a.1 = p
  oneF : ∀ a ∈ accF, a.2 = 1 → a.1 ∈ parentsOf g p
  keyNd : accF.Pairwise (fun a b => a.1 ≠ b.1)

theorem ancInv_final_of_nil {g : FamilyTreeData} {p : String} {acc : List (String × Nat)}
    (inv : AncInv g p [] acc) : AncFinal g p acc := by
  refine ⟨inv.reachAcc, ?_, ?_, inv.zeroA, inv.oneA, inv.keyNd⟩
  · intro a ha z hz
    rcases inv.nbr a ha z hz with ⟨dz, hm, hle⟩ | ⟨dz, hm, _⟩
    · exact ⟨dz, hm, hle⟩
    · simp at hm
  · rcases inv.startI with h | ⟨_, h⟩
    · exact h
    · simp at h

theorem ancLoop_final (g : FamilyTreeData) (p : String) :
    ∀ fuel q acc, ancMeasure g p q acc ≤ fuel → AncInv g p q acc →
      AncFinal g p (ancestorsLoop g fuel q acc) := by
  intro fuel
  induction fuel with
  | zero =>
    intro q acc hM inv
    have hq : q = [] := by
      unfold ancMeasure at hM
      exact List.length_eq_zero.mp (Nat.le_zero.mp (Nat.le_trans (Nat.le_add_right _ _) hM))
    subst hq
    rw [ancestorsLoop_nil]
    exact ancInv_final_of_nil inv
  | succ fuel ih =>
    intro q acc hM inv
    match q with
    | [] =>
      rw [ancestorsLoop_nil]
      exact ancInv_final_of_nil inv
    | (id, d) :: rest =>
      have hHead : (id, d) ∈ (id, d) :: rest := List.mem_cons_self _ _
      have hsort := List.pairwise_cons.mp inv.sortQ
      by_cases hck : containsKey acc id = true
      · simp only [ancestorsLoop, hck, if_pos]
        apply ih rest acc
        · unfold ancMeasure at hM ⊢
          simp only [List.length_cons] at hM
          omega
        · refine ⟨hsort.2, ?_, ?_, ?_, inv.reachAcc, ?_, inv.zeroA, ?_, inv.oneA, ?_,
            inv.keyNd, ?_, ?_⟩
          · intro a ha b hb
            exact inv.spreadQ a (List.mem_cons_of_mem _ ha) b (List.mem_cons_of_mem _ hb)
          · intro a ha e he
            exact inv.accLe a ha e (List.mem_cons_of_mem _ he)
          · intro a ha z hz
            rcases inv.nbr a ha z hz with ⟨dz, hm, hle⟩ | ⟨dz, hm, hle⟩
            · exact Or.inl ⟨dz, hm, hle⟩
            · rcases List.mem_cons.mp hm with h1 | h1
              · obtain ⟨hz1, hz2⟩ := Prod.mk.injEq .. ▸ h1
                obtain ⟨v, hv⟩ := containsKey_true_exists hck
                refine Or.inl ⟨v, ?_, ?_⟩
                · rw [hz1]; exact hv
                · have := inv.accLe (id, v) hv (id, d) hHead
                  simp at this
                  omega
              · exact Or.inr ⟨dz, h1, hle⟩
          · intro e he
            exact inv.reachQ e (List.mem_cons_of_mem _ he)
          · intro e he
            exact inv.zeroQ e (List.mem_cons_of_mem _ he)
          · intro e he
            exact inv.oneQ e (List.mem_cons_of_mem _ he)
          · rcases inv.startI with h | ⟨h1, _⟩
            · exact Or.inl h
            · subst h1
              simp [containsKey] at hck
          · intro e he
            exact inv.candQ e (List.mem_cons_of_mem _ he)
      · have hck' : containsKey acc id = false := by simpa using hck
        simp only [ancestorsLoop, hck', Bool.false_eq_true, if_neg, not_false_iff]
        have hidc : id ∈ ancCands g p := by
          simpa using inv.candQ (id, d) hHead
        have hrest_ge : ∀ e ∈ rest, d ≤ e.2 := fun e he => hsort.1 e he
        have hrest_le : ∀ e ∈ rest, e.2 ≤ d + 1 := by
          intro e he
          simpa using inv.spreadQ e (List.mem_cons_of_mem _ he) (id, d) hHead
        have hnotacc : ∀ a ∈ acc, a.1 ≠ id := by
          intro a ha heq
          exact containsKey_false_not_mem hck' a.2 (by
            have : a = (id, a.2) := by
              rw [← heq]
            rw [← this]
            exact ha)
        apply ih
        · have hdec := ancMissing_decrease g p id d acc hidc hck'
          unfold ancMeasure at hM ⊢
          have hlen : ((parentsOf g id).map (fun h => (h, d + 1))).length ≤ 2 := by
            rw [List.length_map]
            exact parentsOf_length_le g id
          simp only [List.length_append, List.length_cons] at hM ⊢
          omega
        · refine ⟨?_, ?_, ?_, ?_, ?_, ?_, ?_, ?_, ?_, ?_, ?_, ?_, ?_⟩
          · rw [List.pairwise_append]
            refine ⟨hsort.2, pairwise_depthMap _ _, ?_⟩
            intro a ha b hb
            obtain ⟨_, hb2⟩ := mem_depthMap.mp (by
              have : b = (b.1, b.2) := rfl
              rw [this] at hb
              exact hb)
            rw [hb2]
            exact hrest_le a ha
          · intro a ha b hb
            rcases List.mem_append.mp ha with ha1 | ha1 <;>
              rcases List.mem_append.mp hb with hb1 | hb1
            · exact inv.spreadQ a (List.mem_cons_of_mem _ ha1) b (List.mem_cons_of_mem _ hb1)
            · obtain ⟨_, hb2⟩ := mem_depthMap.mp (show (b.1, b.2) ∈ _ from hb1)
              have := hrest_le a ha1
              omega
            · obtain ⟨_, ha2⟩ := mem_depthMap.mp (show (a.1, a.2) ∈ _ from ha1)
              have := hrest_ge b hb1
              omega
            · obtain ⟨_, ha2⟩ := mem_depthMap.mp (show (a.1, a.2) ∈ _ from ha1)
              obtain ⟨_, hb2⟩ := mem_depthMap.mp (show (b.1, b.2) ∈ _ from hb1)
              omega
          · intro a ha e he
            rcases List.mem_append.mp ha with ha1 | ha1
            · rcases List.mem_append.mp he with he1 | he1
              · exact inv.accLe a ha1 e (List.mem_cons_of_mem _ he1)
              · obtain ⟨_, he2⟩ := mem_depthMap.mp (show (e.1, e.2) ∈ _ from he1)
                have := inv.accLe a ha1 (id, d) hHead
                simp at this
                omega
            · have ha2 : a = (id, d) := by simpa using ha1
              subst ha2
              rcases List.mem_append.mp he with he1 | he1
              · exact hrest_ge e he1
              · obtain ⟨_, he2⟩ := mem_depthMap.mp (show (e.1, e.2) ∈ _ from he1)
                omega
          · intro a ha z hz
            rcases List.mem_append.mp ha with ha1 | ha1
            · rcases inv.nbr a ha1 z hz with ⟨dz, hm, hle⟩ | ⟨dz, hm, hle⟩
              · exact Or.inl ⟨dz, List.mem_append_left _ hm, hle⟩
              · rcases List.mem_cons.mp hm with h1 | h1
                · obtain ⟨hz1, hz2⟩ := Prod.mk.injEq .. ▸ h1
                  refine Or.inl ⟨d, ?_, ?_⟩
                  · rw [hz1]
                    exact List.mem_append_right _ (List.mem_singleton.mpr rfl)
                  · omega
                · exact Or.inr ⟨dz, List.mem_append_left _ h1, hle⟩
            · have ha2 : a = (id, d) := by simpa using ha1
              subst ha2
              refine Or.inr ⟨d + 1, ?_, by simp⟩
              exact List.mem_append_right _ (mem_depthMap.mpr ⟨hz, rfl⟩)
          · intro a ha
            rcases List.mem_append.mp ha with ha1 | ha1
            · exact inv.reachAcc a ha1
            · have ha2 : a = (id, d) := by simpa using ha1
              subst ha2
              exact inv.reachQ (id, d) hHead
          · intro e he
            rcases List.mem_append.mp he with he1 | he1
            · exact inv.reachQ e (List.mem_cons_of_mem _ he1)
            · obtain ⟨he1', he2⟩ := mem_depthMap.mp (show (e.1, e.2) ∈ _ from he1)
              have hr : reachN g p e.1 (d + 1) := ⟨id, inv.reachQ (id, d) hHead, he1'⟩
              have : e = (e.1, e.2) := rfl
              rw [this, he2]
              exact hr
          · intro a ha h0
            rcases List.mem_append.mp ha with ha1 | ha1
            · exact inv.zeroA a ha1 h0
            · have ha2 : a = (id, d) := by simpa using ha1
              subst ha2
              exact inv.zeroQ (id, d) hHead h0
          · intro e he h0
            rcases List.mem_append.mp he with he1 | he1
            · exact inv.zeroQ e (List.mem_cons_of_mem _ he1) h0
            · obtain ⟨_, he2⟩ := mem_depthMap.mp (show (e.1, e.2) ∈ _ from he1)
              omega
          · intro a ha h1
            rcases List.mem_append.mp ha with ha1 | ha1
            · exact inv.oneA a ha1 h1
            · have ha2 : a = (id, d) := by simpa using ha1
              subst ha2
              exact inv.oneQ (id, d) hHead h1
          · intro e he h1
            rcases List.mem_append.mp he with he1 | he1
            · exact inv.oneQ e (List.mem_cons_of_mem _ he1) h1
            · obtain ⟨he1', he2⟩ := mem_depthMap.mp (show (e.1, e.2) ∈ _ from he1)
              have hp : id = p := inv.zeroQ (id, d) hHead (by omega)
              rw [← hp]
              exact he1'
          · rw [List.pairwise_append]
            refine ⟨inv.keyNd, List.pairwise_singleton _ _, ?_⟩
            intro a ha b hb
            have hb2 : b = (id, d) := by simpa using hb
            subst hb2
            exact hnotacc a ha
          · rcases inv.startI with h | ⟨h1, h2⟩
            · exact Or.inl (List.mem_append_left _ h)
            · subst h1
              have h3 : id = p ∧ d = 0 ∧ rest = [] := by
                have := List.cons.injEq .. ▸ h2
                simp at this
                exact ⟨this.1.1, this.1.2, this.2⟩
              obtain ⟨hip, hd0, hrnil⟩ := h3
              subst hip hd0
              exact Or.inl (List.mem_append_right _ (by simp))
          · intro e he
            rcases List.mem_append.mp he with he1 | he1
            · exact inv.candQ e (List.mem_cons_of_mem _ he1)
            · obtain ⟨he1', _⟩ := mem_depthMap.mp (show (e.1, e.2) ∈ _ from he1)
              exact parentsOf_sub_cands g p id e.1 he1'

/-- The finished ancestor map satisfies all of its closure properties. -/
theorem findAncestorsWithDepth_final (g : FamilyTreeData) (p : String) :
    AncFinal g p (findAncestorsWithDepth g p) := by
  unfold findAncestorsWithDepth
  apply ancLoop_final
  · unfold ancMeasure ancFuel ancMissing
    have := List.length_filter_le (fun c => !(containsKey ([] : List (String × Nat)) c)) (ancCands g p)
    simp only [List.length_cons, List.length_nil]
    omega
  · refine ⟨List.pairwise_singleton _ _, ?_, ?_, ?_, ?_, ?_, ?_, ?_, ?_, ?_,
      List.Pairwise.nil, Or.inr ⟨rfl, rfl⟩, ?_⟩
    · intro a ha b hb
      simp at ha hb
      simp [ha, hb]
    · intro a ha
      simp at ha
    · intro a ha
      simp at ha
    · intro a ha
      simp at ha
    · intro e he
      simp at he
      rw [show e = (p, 0) from he]
      exact rfl
    · intro a ha
      simp at ha
    · intro e he h0
      simp at he
      rw [show e = (p, 0) from he]
    · intro a ha
      simp at ha
    · intro e he h1
      simp at he
      rw [show e = (p, 0) from he] at h1
      simp at h1
    · intro e he
      simp at he
      rw [show e = (p, 0) from he]
      exact List.mem_cons_self _ _

theorem anc_complete {g : FamilyTreeData} {p : String} {accF : List (String × Nat)}
    (fin : AncFinal g p accF) :
    ∀ m x, reachN g p x m → ∃ d, d ≤ m ∧ (x, d) ∈ accF := by
  intro m
  induction m with
  | zero =>
    intro x hx
    rw [show reachN g p x 0 = (x = p) from rfl] at hx
    subst hx
    exact ⟨0, Nat.le_refl 0, fin.startF⟩
  | succ m ih =>
    intro x hx
    obtain ⟨y, hy, hxy⟩ := hx
    obtain ⟨dy, hdy, hmem⟩ := ih y hy
    obtain ⟨dz, hz, hzle⟩ := fin.closed (y, dy) hmem x hxy
    exact ⟨dz, by omega, hz⟩

/-- C4: the ancestor map records exactly the ids reachable by parent
hops, each at its minimum hop count, and the start id at depth 0. -/
theorem findAncestorsWithDepth_correct (g : FamilyTreeData) (p x : String) (d : Nat) :
    lookupA (findAncestorsWithDepth g p) p = some 0 ∧
    (lookupA (findAncestorsWithDepth g p) x = some d ↔
      (reachN g p x d ∧ ∀ m, reachN g p x m → d ≤ m)) := by
  have fin := findAncestorsWithDepth_final g p
  refine ⟨mem_lookupA fin.keyNd fin.startF, ?_, ?_⟩
  · intro h
    have hmem := lookupA_mem h
    refine ⟨fin.reachA (x, d) hmem, ?_⟩
    intro m hm
    obtain ⟨d', hd', hmem'⟩ := anc_complete fin m x hm
    have h2 : lookupA (findAncestorsWithDepth g p) x = some d' := mem_lookupA fin.keyNd hmem'
    rw [h] at h2
    have : d = d' := by simpa using h2
    omega
  · rintro ⟨hr, hmin⟩
    obtain ⟨d', hd', hmem'⟩ := anc_complete fin d x hr
    have hr' := fin.reachA (x, d') hmem'
    have hdm := hmin d' hr'
    have hdd : d' = d := by omega
    subst hdd
    exact mem_lookupA fin.keyNd hmem'

/-! ### Nearest common ancestor -/

theorem ncaLoop_allP {toA : List (String × Nat)} (P : CommonAncestor → Prop) :
    ∀ l best c, ncaLoop toA l best = some c →
      (∀ b, best = some b → P b) →
      (∀ e ∈ l, ∀ td, lookupA toA e.1 = some td → P ⟨e.1, e.2, td⟩) →
      P c := by
  intro l
  induction l with
  | nil =>
    intro best c hrun hbest _
    exact hbest c hrun
  | cons e rest ih =>
    intro best c hrun hbest hl
    obtain ⟨id, fd⟩ := e
    cases htd : lookupA toA id with
    | none =>
      simp only [ncaLoop, htd] at hrun
      exact ih best c hrun hbest (fun e he => hl e (List.mem_cons_of_mem _ he))
    | some td =>
      simp only [ncaLoop, htd] at hrun
      apply ih _ c hrun _ (fun e he => hl e (List.mem_cons_of_mem _ he))
      intro b hb
      by_cases hbet : ncaBetter best fd td = true
      · rw [if_pos hbet] at hb
        have hbe : b = ⟨id, fd, td⟩ := by simpa using hb.symm
        rw [hbe]
        exact hl (id, fd) (List.mem_cons_self _ _) td htd
      · rw [if_neg hbet] at hb
        exact hbest b hb

theorem ncaLoop_min {toA : List (String × Nat)} :
    ∀ l best c, ncaLoop toA l best = some c →
      (∀ b, best = some b → c.fromDepth + c.toDepth ≤ b.fromDepth + b.toDepth) ∧
      (∀ e ∈ l, ∀ td, lookupA toA e.1 = some td → c.fromDepth + c.toDepth ≤ e.2 + td) := by
  intro l
  induction l with
  | nil =>
    intro best c hrun
    constructor
    · intro b hb
      rw [show ncaLoop toA [] best = best from rfl] at hrun
      rw [hrun] at hb
      have hcb : c = b := by simpa using hb
      rw [hcb]
    · intro e he
      simp at he
  | cons e rest ih =>
    intro best c hrun
    obtain ⟨id, fd⟩ := e
    cases htd : lookupA toA id with
    | none =>
      simp only [ncaLoop, htd] at hrun
      obtain ⟨h1, h2⟩ := ih best c hrun
      refine ⟨h1, ?_⟩
      intro e he td htd'
      rcases List.mem_cons.mp he with h3 | h3
      · rw [h3] at htd'
        simp at htd'
        rw [htd'] at htd
        cases htd
      · exact h2 e h3 td htd'
    | some td =>
      simp only [ncaLoop, htd] at hrun
      obtain ⟨h1, h2⟩ := ih _ c hrun
      have hhead : c.fromDepth + c.toDepth ≤ fd + td := by
        by_cases hbet : ncaBetter best fd td = true
        · have := h1 ⟨id, fd, td⟩ (by rw [if_pos hbet])
          simpa using this
        · cases hb : best with
          | none => simp [hb, ncaBetter] at hbet
          | some b0 =>
            have hhue : (if ncaBetter best fd td then some (⟨id, fd, td⟩ : CommonAncestor) else best) = some b0 := by
              rw [if_neg hbet, hb]
            have hcb0 := h1 b0 hhue
            rw [hb] at hbet
            simp [ncaBetter] at hbet
            omega
      refine ⟨?_, ?_⟩
      · intro b hb
        by_cases hbet : ncaBetter best fd td = true
        · cases hb' : best with
          | none => rw [hb'] at hb; simp at hb
          | some b0 =>
            rw [hb'] at hbet
            simp [ncaBetter] at hbet
            have hbb : b = b0 := by rw [hb'] at hb; exact (by simpa using hb : b0 = b).symm
            rw [hbb]
            omega
        · rw [if_neg hbet] at h1
          exact h1 b hb
      · intro e he td' htd'
        rcases List.mem_cons.mp he with h3 | h3
        · have he1 : e.1 = id := by rw [h3]
          have he2 : e.2 = fd := by rw [h3]
          rw [he1] at htd'
          rw [htd] at htd'
          have : td' = td := by simpa using htd'.symm
          rw [he2, this]
          exact hhead
        · exact h2 e h3 td' htd'

/-- The chosen common ancestor is a genuine entry of both maps. -/
theorem nca_mem {fromA toA : List (String × Nat)} {c : CommonAncestor}
    (h : findNearestCommonAncestor fromA toA = some c) :
    (c.ancestorId, c.fromDepth) ∈ fromA ∧ lookupA toA c.ancestorId = some c.toDepth := by
  apply ncaLoop_allP
    (fun c => (c.ancestorId, c.fromDepth) ∈ fromA ∧ lookupA toA c.ancestorId = some c.toDepth)
    fromA none c h
  · intro b hb
    cases hb
  · intro e he td htd
    exact ⟨by
      have : e = (e.1, e.2) := rfl
      rw [← this]
      exact he, htd⟩

/-- The chosen common ancestor minimises the total depth over all
common entries. -/
theorem nca_min {fromA toA : List (String × Nat)} {c : CommonAncestor}
    (h : findNearestCommonAncestor fromA toA = some c) :
    ∀ e ∈ fromA, ∀ td, lookupA toA e.1 = some td →
      c.fromDepth + c.toDepth ≤ e.2 + td :=
  (ncaLoop_min fromA none c h).2

/-! ### The classification is exhaustive away from (0, 0) -/

theorem calcBlood_not_unknown (g : FamilyTreeData) (f t : String) (ca : CommonAncestor)
    (h : ¬(ca.fromDepth = 0 ∧ ca.toDepth = 0)) :
    (calculateBloodRelationship g f t ca).relationship ≠ RelationshipType.unknown := by
  unfold calculateBloodRelationship
  dsimp only
  split_ifs <;>
    first
      | (simp [createAncestorRelation, createDescendantRelation, createCousinRelation]; done)
      | (exfalso; omega)

/-- The chosen common ancestor of two distinct ids never has both
depths 0. -/
theorem nca_not_both_zero {g : FamilyTreeData} {f t : String} {c : CommonAncestor}
    (hne : f ≠ t)
    (hnca : findNearestCommonAncestor (findAncestorsWithDepth g f)
      (findAncestorsWithDepth g t) = some c) :
    ¬(c.fromDepth = 0 ∧ c.toDepth = 0) := by
  rintro ⟨h0f, h0t⟩
  obtain ⟨hmemF, hlookT⟩ := nca_mem hnca
  have hmemT := lookupA_mem hlookT
  have hf := (findAncestorsWithDepth_final g f).zeroF (c.ancestorId, c.fromDepth) hmemF h0f
  have ht := (findAncestorsWithDepth_final g t).zeroF (c.ancestorId, c.toDepth) hmemT h0t
  exact hne (by rw [← hf, ← ht])

/-- C7: whenever the two ids differ and a nearest common ancestor is
found, its two depths are never both 0 (depth 0 is reserved for the
walk's start), so the "Distant Relative" fall-through of
`calculateBloodRelationship` cannot be reached. -/
theorem distantRelative_unreachable (g : FamilyTreeData) (f t : String) (c : CommonAncestor)
    (hne : f ≠ t)
    (hnca : findNearestCommonAncestor (findAncestorsWithDepth g f)
      (findAncestorsWithDepth g t) = some c) :
    ¬(c.fromDepth = 0 ∧ c.toDepth = 0) ∧
      (calculateBloodRelationship g f t c).relationship ≠ RelationshipType.unknown :=
  ⟨nca_not_both_zero hne hnca,
    calcBlood_not_unknown g f t c (nca_not_both_zero hne hnca)⟩

/-! ### Totality on garbage ids -/

theorem findAncestors_of_noInd {g : FamilyTreeData} {p : String}
    (hp : lookupInd g p = none) : findAncestorsWithDepth g p = [(p, 0)] := by
  unfold findAncestorsWithDepth ancFuel
  simp only [ancestorsLoop, containsKey]
  rw [if_neg (by simp)]
  simp only [parentsOf, hp, List.map_nil, List.append_nil, List.nil_append]
  exact ancestorsLoop_nil g _ _

/-- C6: the calculator is total over arbitrary id strings; two distinct
ids that resolve to no individual produce the `unknown` sentinel with
label "Unknown Relation", with every lookup degrading to an absent
result. -/
theorem findRelationship_garbage (g : FamilyTreeData) (f t : String)
    (hf : lookupInd g f = none) (ht : lookupInd g t = none) (hne : f ≠ t) :
    findRelationship g f t false = unknownResult f t := by
  have hsp : checkSpouseRelationship g f t = none := by
    simp [checkSpouseRelationship, hf]
  have hAf : findAncestorsWithDepth g f = [(f, 0)] := findAncestors_of_noInd hf
  have hAt : findAncestorsWithDepth g t = [(t, 0)] := findAncestors_of_noInd ht
  have hnca : findNearestCommonAncestor (findAncestorsWithDepth g f)
      (findAncestorsWithDepth g t) = none := by
    rw [hAf, hAt]
    simp [findNearestCommonAncestor, ncaLoop, lookupA, hne]
  have hinlaw : checkInLawRelationship g f t = none := by
    simp [checkInLawRelationship, hf]
  have hsb : checkSpouseBloodRelatives g f t = none := by
    simp [checkSpouseBloodRelatives, hf]
  simp [findRelationship, findRelationshipFull, hne, hsp, hnca, hinlaw, hsb]

/-! ### Branch lemmas for the blood classification -/

theorem calcBlood_ancestor (g : FamilyTreeData) (f t : String) (ca : CommonAncestor)
    (h0 : ca.toDepth = 0) (hf : 0 < ca.fromDepth) :
    calculateBloodRelationship g f t ca = createAncestorRelation f t ca.fromDepth (sexOf g t) := by
  unfold calculateBloodRelationship
  dsimp only
  rw [if_pos ⟨h0, hf⟩]

theorem calcBlood_descendant (g : FamilyTreeData) (f t : String) (ca : CommonAncestor)
    (h0 : ca.fromDepth = 0) (ht : 0 < ca.toDepth) :
    calculateBloodRelationship g f t ca = createDescendantRelation f t ca.toDepth (sexOf g t) := by
  unfold calculateBloodRelationship
  dsimp only
  rw [if_neg (by omega), if_pos ⟨h0, ht⟩]

theorem calcBlood_sibling_rel (g : FamilyTreeData) (f t : String) (ca : CommonAncestor)
    (hf : ca.fromDepth = 1) (ht : ca.toDepth = 1) :
    (calculateBloodRelationship g f t ca).relationship =
      RelationshipType.sibling (checkHalfSibling g f t) := by
  unfold calculateBloodRelationship
  dsimp only
  rw [if_neg (by omega), if_neg (by omega), if_pos ⟨hf, ht⟩]

theorem calcBlood_uncle_rel (g : FamilyTreeData) (f t : String) (ca : CommonAncestor)
    (hf : 2 ≤ ca.fromDepth) (ht : ca.toDepth = 1) :
    (calculateBloodRelationship g f t ca).relationship =
      RelationshipType.uncleAunt (ca.fromDepth - 2) := by
  unfold calculateBloodRelationship
  dsimp only
  repeat rw [if_neg (by omega)]
  by_cases h2 : ca.fromDepth = 2
  · rw [if_pos ⟨h2, ht⟩]
    simp [h2]
  · rw [if_neg (by omega), if_pos ⟨by omega, ht⟩]

theorem calcBlood_nephew_rel (g : FamilyTreeData) (f t : String) (ca : CommonAncestor)
    (hf : ca.fromDepth = 1) (ht : 2 ≤ ca.toDepth) :
    (calculateBloodRelationship g f t ca).relationship =
      RelationshipType.nephewNiece (ca.toDepth - 2) := by
  unfold calculateBloodRelationship
  dsimp only
  repeat rw [if_neg (by omega)]
  by_cases h2 : ca.toDepth = 2
  · rw [if_pos ⟨hf, h2⟩]
    simp [h2]
  · rw [if_neg (by omega), if_pos ⟨hf, by omega⟩]

theorem calcBlood_cousin (g : FamilyTreeData) (f t : String) (ca : CommonAncestor)
    (hf : 2 ≤ ca.fromDepth) (ht : 2 ≤ ca.toDepth) :
    calculateBloodRelationship g f t ca =
      createCousinRelation f t (min ca.fromDepth ca.toDepth - 1) (absDiff ca.fromDepth ca.toDepth) := by
  unfold calculateBloodRelationship
  dsimp only
  repeat rw [if_neg (by omega)]
  rw [if_pos ⟨hf, ht⟩]

theorem parentsOf_resolve {g : FamilyTreeData} {id x : String} (h : x ∈ parentsOf g id) :
    ∃ p fid fam, lookupInd g id = some p ∧ p.familyAsChild = some fid ∧
      lookupFam g fid = some fam ∧ (fam.husband = some x ∨ fam.wife = some x) := by
  unfold parentsOf at h
  cases hind : lookupInd g id with
  | none => rw [hind] at h; simp at h
  | some p =>
    simp only [hind] at h
    cases hfac : p.familyAsChild with
    | none => simp [hfac] at h
    | some fid =>
      simp only [hfac] at h
      cases hfam : lookupFam g fid with
      | none => simp [hfam] at h
      | some fam =>
        simp only [hfam] at h
        refine ⟨p, fid, fam, rfl, hfac, hfam, ?_⟩
        rcases List.mem_append.mp h with h1 | h1
        · left
          cases hh : fam.husband with
          | none => rw [hh] at h1; simp [Option.toList] at h1
          | some hid =>
            rw [hh] at h1
            simp [Option.toList] at h1
            rw [h1]
        · right
          cases hw : fam.wife with
          | none => rw [hw] at h1; simp [Option.toList] at h1
          | some wid =>
            rw [hw] at h1
            simp [Option.toList] at h1
            rw [h1]

theorem checkHalfSibling_iff {g : FamilyTreeData} {f t : String}
    {pf pt : Individual} {ff ft : String} {famf : Family}
    (hf : lookupInd g f = some pf) (hff : pf.familyAsChild = some ff)
    (hfam : lookupFam g ff = some famf)
    (ht : lookupInd g t = some pt) (hft : pt.familyAsChild = some ft) :
    (checkHalfSibling g f t = true ↔
      (ff ≠ ft ∨ famf.husband = none ∨ famf.wife = none)) := by
  unfold checkHalfSibling
  simp only [hf, ht, hff, hft]
  by_cases hee : ff = ft
  · subst hee
    rw [if_neg (by simp)]
    simp only [hfam]
    simp [Option.isNone_iff_eq_none]
  · rw [if_pos hee]
    simp [hee]

/-! ### C1: the blood classification table -/

/-- The spec's classification table for `(fromDepth, toDepth)` of the
chosen common ancestor, written from the spec for comparison with the
code: ancestor/descendant at depth 0, sibling with the half-sibling
characterisation at (1, 1), uncle/aunt and nephew/niece rows, cousins
with degree/removed arithmetic and ordinal labels. -/
def bloodTableSpec (g : FamilyTreeData) (f t : String) (c : CommonAncestor) : Prop :=
  (c.toDepth = 0 →
    (calculateBloodRelationship g f t c).relationship =
      RelationshipType.parent c.fromDepth Lineage.direct) ∧
  (c.fromDepth = 0 →
    (calculateBloodRelationship g f t c).relationship =
      RelationshipType.child c.toDepth Lineage.direct) ∧
  (c.fromDepth = 1 → c.toDepth = 1 →
    (calculateBloodRelationship g f t c).relationship =
      RelationshipType.sibling (checkHalfSibling g f t) ∧
    ∃ pf pt ff ft famf,
      lookupInd g f = some pf ∧ pf.familyAsChild = some ff ∧ lookupFam g ff = some famf ∧
      lookupInd g t = some pt ∧ pt.familyAsChild = some ft ∧
      (checkHalfSibling g f t = true ↔
        (ff ≠ ft ∨ famf.husband = none ∨ famf.wife = none))) ∧
  (2 ≤ c.fromDepth → c.toDepth = 1 →
    (calculateBloodRelationship g f t c).relationship =
      RelationshipType.uncleAunt (c.fromDepth - 2)) ∧
  (c.fromDepth = 1 → 2 ≤ c.toDepth →
    (calculateBloodRelationship g f t c).relationship =
      RelationshipType.nephewNiece (c.toDepth - 2)) ∧
  (2 ≤ c.fromDepth → 2 ≤ c.toDepth →
    (calculateBloodRelationship g f t c).relationship =
      RelationshipType.cousin (min c.fromDepth c.toDepth - 1) (absDiff c.fromDepth c.toDepth) ∧
    (calculateBloodRelationship g f t c).label =
      getOrdinal (min c.fromDepth c.toDepth - 1) ++ " Cousin" ++
        (if 0 < absDiff c.fromDepth c.toDepth then
          " " ++ toString (absDiff c.fromDepth c.toDepth) ++ "x Removed" else "")) ∧
  (getOrdinal 1 = "1st" ∧ getOrdinal 2 = "2nd" ∧ getOrdinal 3 = "3rd" ∧
    getOrdinal 4 = "4th" ∧ getOrdinal 5 = "5th" ∧ getOrdinal 6 = "6th" ∧
    getOrdinal 7 = "7th" ∧ getOrdinal 8 = "8th" ∧ getOrdinal 9 = "9th" ∧
    getOrdinal 10 = "10th") ∧
  (∀ n, 10 < n → getOrdinal n = toString n ++ "th")

/-- C1: away from self and direct-spouse pairs, once a nearest common
ancestor is found, `findRelationship` defers to
`calculateBloodRelationship`, and the latter classifies exactly per the
spec's depth table. -/
theorem findRelationship_blood_table (g : FamilyTreeData) (f t : String) (c : CommonAncestor)
    (skip : Bool) (hne : f ≠ t)
    (hsp : checkSpouseRelationship g f t = none)
    (hnca : findNearestCommonAncestor (findAncestorsWithDepth g f)
      (findAncestorsWithDepth g t) = some c) :
    findRelationship g f t skip = calculateBloodRelationship g f t c ∧
      bloodTableSpec g f t c := by
  have hzz := nca_not_both_zero hne hnca
  have hlink : findRelationship g f t skip = calculateBloodRelationship g f t c := by
    cases skip <;>
      simp [findRelationship, findRelationshipFull, findRelationshipSkip, hne, hsp, hnca]
  refine ⟨hlink, ?_, ?_, ?_, ?_, ?_, ?_, ?_, ?_⟩
  · intro htd
    have hfd : 0 < c.fromDepth := by omega
    rw [calcBlood_ancestor g f t c htd hfd]
    simp [createAncestorRelation]
  · intro hfd
    have htd : 0 < c.toDepth := by omega
    rw [calcBlood_descendant g f t c hfd htd]
    simp [createDescendantRelation]
  · intro hfd htd
    obtain ⟨hmemF, hlookT⟩ := nca_mem hnca
    rw [hfd] at hmemF
    have hpf := (findAncestorsWithDepth_final g f).oneF (c.ancestorId, 1) hmemF rfl
    rw [htd] at hlookT
    have hmemT := lookupA_mem hlookT
    have hpt := (findAncestorsWithDepth_final g t).oneF (c.ancestorId, 1) hmemT rfl
    obtain ⟨pf, ff, famf, hf1, hf2, hf3, _⟩ := parentsOf_resolve hpf
    obtain ⟨pt, ft, famt, ht1, ht2, ht3, _⟩ := parentsOf_resolve hpt
    exact ⟨calcBlood_sibling_rel g f t c hfd htd,
      pf, pt, ff, ft, famf, hf1, hf2, hf3, ht1, ht2,
      checkHalfSibling_iff hf1 hf2 hf3 ht1 ht2⟩
  · intro hfd htd
    exact calcBlood_uncle_rel g f t c hfd htd
  · intro hfd htd
    exact calcBlood_nephew_rel g f t c hfd htd
  · intro hfd htd
    rw [calcBlood_cousin g f t c hfd htd]
    constructor
    · simp [createCousinRelation]
    · simp [createCousinRelation]
  · exact ⟨rfl, rfl, rfl, rfl, rfl, rfl, rfl, rfl, rfl, rfl⟩
  · intro n hn
    unfold getOrdinal
    repeat rw [if_neg (by omega)]

/-- Scenario graph: one family unit with two parents and two children. -/
def Gsib : FamilyTreeData :=
  ⟨[("I1", ⟨Sex.M, ["F1"], none⟩), ("I2", ⟨Sex.F, ["F1"], none⟩),
    ("I3", ⟨Sex.M, [], some "F1"⟩), ("I4", ⟨Sex.F, [], some "F1"⟩)],
   [("F1", ⟨some "I1", some "I2", ["I3", "I4"]⟩)]⟩

theorem findRelationship_blood_table_witness :
    (("I3" : String) ≠ "I4" ∧
      checkSpouseRelationship Gsib "I3" "I4" = none ∧
      findNearestCommonAncestor (findAncestorsWithDepth Gsib "I3")
        (findAncestorsWithDepth Gsib "I4") = some ⟨"I1", 1, 1⟩) ∧
    (findRelationship Gsib "I3" "I4" false =
        calculateBloodRelationship Gsib "I3" "I4" ⟨"I1", 1, 1⟩ ∧
      bloodTableSpec Gsib "I3" "I4" ⟨"I1", 1, 1⟩) :=
  ⟨⟨by decide, by rfl, by rfl⟩,
    findRelationship_blood_table Gsib "I3" "I4" ⟨"I1", 1, 1⟩ false
      (by decide) (by rfl) (by rfl)⟩

theorem findRelationship_garbage_witness :
    (lookupInd Gsib "zz1" = none ∧ lookupInd Gsib "zz2" = none ∧ ("zz1" : String) ≠ "zz2") ∧
    findRelationship Gsib "zz1" "zz2" false = unknownResult "zz1" "zz2" :=
  ⟨⟨by rfl, by rfl, by decide⟩,
    findRelationship_garbage Gsib "zz1" "zz2" (by rfl) (by rfl) (by decide)⟩

theorem distantRelative_unreachable_witness :
    (("I3" : String) ≠ "I1" ∧
      findNearestCommonAncestor (findAncestorsWithDepth Gsib "I3")
        (findAncestorsWithDepth Gsib "I1") = some ⟨"I1", 1, 0⟩) ∧
    (¬((⟨"I1", 1, 0⟩ : CommonAncestor).fromDepth = 0 ∧
        (⟨"I1", 1, 0⟩ : CommonAncestor).toDepth = 0) ∧
      (calculateBloodRelationship Gsib "I3" "I1" ⟨"I1", 1, 0⟩).relationship ≠
        RelationshipType.unknown) :=
  ⟨⟨by decide, by rfl⟩,
    distantRelative_unreachable Gsib "I3" "I1" ⟨"I1", 1, 0⟩ (by decide) (by rfl)⟩

/-! ### C8: cousin symmetry -/

/-- Inversion: a cousin classification forces both depths at least 2
and pins degree and removed to the depth arithmetic. -/
theorem calcBlood_cousin_inv (g : FamilyTreeData) (f t : String) (ca : CommonAncestor)
    (d r : Nat)
    (h : (calculateBloodRelationship g f t ca).relationship = RelationshipType.cousin d r) :
    2 ≤ ca.fromDepth ∧ 2 ≤ ca.toDepth ∧
      d = min ca.fromDepth ca.toDepth - 1 ∧ r = absDiff ca.fromDepth ca.toDepth := by
  unfold calculateBloodRelationship at h
  dsimp only at h
  split_ifs at h with h1 h2 h3 hh h4 h5 h6 h7
  · simp [createAncestorRelation] at h
  · simp [createDescendantRelation] at h
  · simp [createCousinRelation] at h
    exact ⟨h7.1, h7.2, h.1.symm, h.2.symm⟩

/-- Both directions of the cousin computation share their minimal total
depth to the chosen common ancestor. -/
theorem nca_total_symm {g : FamilyTreeData} {a b : String} {c c' : CommonAncestor}
    (hab : findNearestCommonAncestor (findAncestorsWithDepth g a)
      (findAncestorsWithDepth g b) = some c)
    (hba : findNearestCommonAncestor (findAncestorsWithDepth g b)
      (findAncestorsWithDepth g a) = some c') :
    c.fromDepth + c.toDepth = c'.fromDepth + c'.toDepth := by
  obtain ⟨hmemA, hlookB⟩ := nca_mem hab
  obtain ⟨hmemB, hlookA⟩ := nca_mem hba
  have hndA := (findAncestorsWithDepth_final g a).keyNd
  have hndB := (findAncestorsWithDepth_final g b).keyNd
  have h1 : c.fromDepth + c.toDepth ≤ c'.toDepth + c'.fromDepth := by
    apply nca_min hab (c'.ancestorId, c'.toDepth) (lookupA_mem hlookA)
    exact mem_lookupA hndB hmemB
  have h2 : c'.fromDepth + c'.toDepth ≤ c.toDepth + c.fromDepth := by
    apply nca_min hba (c.ancestorId, c.toDepth) (lookupA_mem hlookB)
    exact mem_lookupA hndA hmemA
  omega

/-- C8 counterexample: a graph with two equal-total common ancestors
where the forward direction classifies as 1st cousin twice removed but
the reverse as plain 2nd cousin, so degree and removed are not
symmetric. -/
def Gcousins : FamilyTreeData :=
  ⟨[("a", ⟨Sex.U, [], some "FA"⟩), ("H", ⟨Sex.M, ["FA"], some "FH"⟩),
    ("W", ⟨Sex.F, ["FA"], some "FW"⟩), ("X", ⟨Sex.M, ["FH", "F3"], none⟩),
    ("M", ⟨Sex.F, ["FW"], some "FM"⟩), ("Y", ⟨Sex.F, ["FM", "F5"], none⟩),
    ("b", ⟨Sex.U, [], some "FB"⟩), ("p1", ⟨Sex.M, ["FB"], some "F1"⟩),
    ("q1", ⟨Sex.F, ["FB"], some "F4"⟩), ("p2", ⟨Sex.M, ["F1"], some "F2"⟩),
    ("p3", ⟨Sex.M, ["F2"], some "F3"⟩), ("q2", ⟨Sex.F, ["F4"], some "F5"⟩)],
   [("FA", ⟨some "H", some "W", ["a"]⟩), ("FH", ⟨some "X", none, ["H"]⟩),
    ("FW", ⟨none, some "M", ["W"]⟩), ("FM", ⟨none, some "Y", ["M"]⟩),
    ("FB", ⟨some "p1", some "q1", ["b"]⟩), ("F1", ⟨some "p2", none, ["p1"]⟩),
    ("F2", ⟨some "p3", none, ["p2"]⟩), ("F3", ⟨some "X", none, ["p3"]⟩),
    ("F4", ⟨none, some "q2", ["q1"]⟩), ("F5", ⟨none, some "Y", ["q2"]⟩)]⟩

/-- C8 is false as stated: `findRelationship` yields cousin(1, 2) from
`a` to `b` but cousin(2, 0) from `b` to `a` on `Gcousins`. -/
theorem cousin_symmetry_counterexample :
    (findRelationship Gcousins "a" "b" false).relationship = RelationshipType.cousin 1 2 ∧
    (findRelationship Gcousins "b" "a" false).relationship = RelationshipType.cousin 2 0 ∧
    ¬((1 : Nat) = 2 ∧ (2 : Nat) = 0) :=
  ⟨by rfl, by rfl, by decide⟩

/-- C8 amended: when both directions resolve through the
common-ancestor branch to cousin relations, the combined generational
distance `2 * degree + removed` agrees, even though degree and removed
individually may differ. -/
theorem cousin_symmetry_total (g : FamilyTreeData) (a b : String) (c c' : CommonAncestor)
    (d r d' r' : Nat) (hne : a ≠ b)
    (hspab : checkSpouseRelationship g a b = none)
    (hspba : checkSpouseRelationship g b a = none)
    (hab : findNearestCommonAncestor (findAncestorsWithDepth g a)
      (findAncestorsWithDepth g b) = some c)
    (hba : findNearestCommonAncestor (findAncestorsWithDepth g b)
      (findAncestorsWithDepth g a) = some c')
    (hdab : (findRelationship g a b false).relationship = RelationshipType.cousin d r)
    (hdba : (findRelationship g b a false).relationship = RelationshipType.cousin d' r') :
    2 * d + r = 2 * d' + r' := by
  have hlink1 : findRelationship g a b false = calculateBloodRelationship g a b c := by
    simp [findRelationship, findRelationshipFull, hne, hspab, hab]
  have hlink2 : findRelationship g b a false = calculateBloodRelationship g b a c' := by
    simp [findRelationship, findRelationshipFull, Ne.symm hne, hspba, hba]
  rw [hlink1] at hdab
  rw [hlink2] at hdba
  obtain ⟨hf1, ht1, hd1, hr1⟩ := calcBlood_cousin_inv g a b c d r hdab
  obtain ⟨hf2, ht2, hd2, hr2⟩ := calcBlood_cousin_inv g b a c' d' r' hdba
  have htot := nca_total_symm hab hba
  have e1 : 2 * d + r + 2 = c.fromDepth + c.toDepth := by
    rw [hd1, hr1]
    simp [absDiff, Nat.min_def]
    split_ifs <;> omega
  have e2 : 2 * d' + r' + 2 = c'.fromDepth + c'.toDepth := by
    rw [hd2, hr2]
    simp [absDiff, Nat.min_def]
    split_ifs <;> omega
  omega

theorem cousin_symmetry_total_witness :
    (("a" : String) ≠ "b" ∧
      checkSpouseRelationship Gcousins "a" "b" = none ∧
      checkSpouseRelationship Gcousins "b" "a" = none ∧
      findNearestCommonAncestor (findAncestorsWithDepth Gcousins "a")
        (findAncestorsWithDepth Gcousins "b") = some ⟨"X", 2, 4⟩ ∧
      findNearestCommonAncestor (findAncestorsWithDepth Gcousins "b")
        (findAncestorsWithDepth Gcousins "a") = some ⟨"Y", 3, 3⟩ ∧
      (findRelationship Gcousins "a" "b" false).relationship = RelationshipType.cousin 1 2 ∧
      (findRelationship Gcousins "b" "a" false).relationship = RelationshipType.cousin 2 0) ∧
    2 * 1 + 2 = 2 * 2 + 0 :=
  ⟨⟨by decide, by rfl, by rfl, by rfl, by rfl, by rfl, by rfl⟩,
    cousin_symmetry_total Gcousins "a" "b" ⟨"X", 2, 4⟩ ⟨"Y", 3, 3⟩ 1 2 2 0
      (by decide) (by rfl) (by rfl) (by rfl) (by rfl) (by rfl) (by rfl)⟩

/-! ### C2: the spouse-blood-relative fallback -/

theorem isUnknownOrSelf_false_iff (rt : RelationshipType) :
    isUnknownOrSelf rt = false ↔
      (rt ≠ RelationshipType.unknown ∧ rt ≠ RelationshipType.self) := by
  cases rt <;> simp [isUnknownOrSelf]

theorem spouseBloodLoop_spec (g : FamilyTreeData) (f t : String) :
    ∀ l r, spouseBloodLoop g f t l = some r →
      ∃ fid fam s, fid ∈ l ∧ lookupFam g fid = some fam ∧
        spouseInFamily f fam = some s ∧
        isUnknownOrSelf (findRelationshipSkip g s t).relationship = false ∧
        r = ⟨f, t, (findRelationshipSkip g s t).path,
          (findRelationshipSkip g s t).relationship,
          "Spouse's " ++ (findRelationshipSkip g s t).label⟩ := by
  intro l
  induction l with
  | nil =>
    intro r hr
    simp [spouseBloodLoop] at hr
  | cons fid rest ih =>
    intro r hr
    cases hfam : lookupFam g fid with
    | none =>
      simp only [spouseBloodLoop, hfam] at hr
      obtain ⟨fid', fam, s, hm, h2, h3, h4, h5⟩ := ih r hr
      exact ⟨fid', fam, s, List.mem_cons_of_mem _ hm, h2, h3, h4, h5⟩
    | some fam =>
      cases hs : spouseInFamily f fam with
      | none =>
        simp only [spouseBloodLoop, hfam, hs] at hr
        obtain ⟨fid', fam', s, hm, h2, h3, h4, h5⟩ := ih r hr
        exact ⟨fid', fam', s, List.mem_cons_of_mem _ hm, h2, h3, h4, h5⟩
      | some s =>
        by_cases huk : isUnknownOrSelf (findRelationshipSkip g s t).relationship = true
        · simp only [spouseBloodLoop, hfam, hs, huk, if_pos] at hr
          obtain ⟨fid', fam', s', hm, h2, h3, h4, h5⟩ := ih r hr
          exact ⟨fid', fam', s', List.mem_cons_of_mem _ hm, h2, h3, h4, h5⟩
        · have huk' : isUnknownOrSelf (findRelationshipSkip g s t).relationship = false := by
            simpa using huk
          simp only [spouseBloodLoop, hfam, hs, huk', Bool.false_eq_true, if_neg,
            not_false_iff, Option.some.injEq] at hr
          exact ⟨fid, fam, s, List.mem_cons_self _ _, hfam, hs, huk', hr.symm⟩

/-- C2 counterexample graph: `me` is married to `sp`, whose grandfather
is `gpa`; no in-law case covers a spouse's grandparent. -/
def Gspouse : FamilyTreeData :=
  ⟨[("me", ⟨Sex.U, ["Fm"], none⟩), ("sp", ⟨Sex.F, ["Fm"], some "Fp"⟩),
    ("pa", ⟨Sex.M, ["Fg"], some "Fg2"⟩), ("gpa", ⟨Sex.M, ["Fg2"], none⟩)],
   [("Fm", ⟨some "me", some "sp", []⟩), ("Fp", ⟨some "pa", none, ["sp"]⟩),
    ("Fg2", ⟨some "gpa", none, ["pa"]⟩)]⟩

/-- C2 is false as stated: the fallback result copies the spouse's
relationship verbatim (here `parent 2 direct`) and only prefixes the
label; the relationship kind is NOT `inLaw` wrapping the spouse's
relation. -/
theorem spouse_fallback_counterexample :
    findRelationship Gspouse "me" "gpa" false =
      ⟨"me", "gpa", [], RelationshipType.parent 2 Lineage.direct, "Spouse's Grandfather"⟩ ∧
    (findRelationship Gspouse "me" "gpa" false).relationship ≠
      RelationshipType.inLaw (RelationshipType.parent 2 Lineage.direct) :=
  ⟨by rfl, by decide⟩

/-- C2 amended: when the earlier checks fail and the fallback finds a
spouse with a named (non-unknown, non-self) relation to `toId`, the
result's label is `"Spouse's "` prefixed to that spouse's label, and
its relationship is that spouse's relationship copied unchanged. -/
theorem spouse_fallback_label (g : FamilyTreeData) (f t : String) (r : RelationshipPath)
    (hne : f ≠ t)
    (hsp : checkSpouseRelationship g f t = none)
    (hnca : findNearestCommonAncestor (findAncestorsWithDepth g f)
      (findAncestorsWithDepth g t) = none)
    (hil : checkInLawRelationship g f t = none)
    (hsb : checkSpouseBloodRelatives g f t = some r) :
    findRelationship g f t false = r ∧
    ∃ fid fam s fp,
      lookupInd g f = some fp ∧ fid ∈ fp.familyAsSpouse ∧
      lookupFam g fid = some fam ∧ spouseInFamily f fam = some s ∧
      (findRelationshipSkip g s t).relationship ≠ RelationshipType.unknown ∧
      (findRelationshipSkip g s t).relationship ≠ RelationshipType.self ∧
      r.relationship = (findRelationshipSkip g s t).relationship ∧
      r.label = "Spouse's " ++ (findRelationshipSkip g s t).label ∧
      findRelationship g s t true = findRelationshipSkip g s t := by
  have hrun : findRelationship g f t false = r := by
    simp [findRelationship, findRelationshipFull, hne, hsp, hnca, hil, hsb]
  refine ⟨hrun, ?_⟩
  unfold checkSpouseBloodRelatives at hsb
  cases hf : lookupInd g f with
  | none => rw [hf] at hsb; cases hsb
  | some fp =>
    rw [hf] at hsb
    obtain ⟨fid, fam, s, hm, h2, h3, h4, h5⟩ := spouseBloodLoop_spec g f t fp.familyAsSpouse r hsb
    obtain ⟨hu, hsf⟩ := (isUnknownOrSelf_false_iff _).mp h4
    exact ⟨fid, fam, s, fp, rfl, hm, h2, h3, hu, hsf, by rw [h5], by rw [h5], rfl⟩

theorem spouse_fallback_label_witness :
    (("me" : String) ≠ "gpa" ∧
      checkSpouseRelationship Gspouse "me" "gpa" = none ∧
      findNearestCommonAncestor (findAncestorsWithDepth Gspouse "me")
        (findAncestorsWithDepth Gspouse "gpa") = none ∧
      checkInLawRelationship Gspouse "me" "gpa" = none ∧
      checkSpouseBloodRelatives Gspouse "me" "gpa" =
        some ⟨"me", "gpa", [], RelationshipType.parent 2 Lineage.direct,
          "Spouse's Grandfather"⟩) ∧
    (findRelationship Gspouse "me" "gpa" false =
      ⟨"me", "gpa", [], RelationshipType.parent 2 Lineage.direct, "Spouse's Grandfather"⟩ ∧
    ∃ fid fam s fp,
      lookupInd Gspouse "me" = some fp ∧ fid ∈ fp.familyAsSpouse ∧
      lookupFam Gspouse fid = some fam ∧ spouseInFamily "me" fam = some s ∧
      (findRelationshipSkip Gspouse s "gpa").relationship ≠ RelationshipType.unknown ∧
      (findRelationshipSkip Gspouse s "gpa").relationship ≠ RelationshipType.self ∧
      (⟨"me", "gpa", [], RelationshipType.parent 2 Lineage.direct,
        "Spouse's Grandfather"⟩ : RelationshipPath).relationship =
        (findRelationshipSkip Gspouse s "gpa").relationship ∧
      (⟨"me", "gpa", [], RelationshipType.parent 2 Lineage.direct,
        "Spouse's Grandfather"⟩ : RelationshipPath).label =
        "Spouse's " ++ (findRelationshipSkip Gspouse s "gpa").label ∧
      findRelationship Gspouse s "gpa" true = findRelationshipSkip Gspouse s "gpa") :=
  ⟨⟨by decide, by rfl, by rfl, by rfl, by rfl⟩,
    spouse_fallback_label Gspouse "me" "gpa"
      ⟨"me", "gpa", [], RelationshipType.parent 2 Lineage.direct, "Spouse's Grandfather"⟩
      (by decide) (by rfl) (by rfl) (by rfl) (by rfl)⟩

/-! ### C3: order of the in-law checks -/

theorem anyChildIs_true {t sp : String} :
    ∀ l, t ∈ l → t ≠ sp → anyChildIs t sp l = true := by
  intro l
  induction l with
  | nil => intro h; simp at h
  | cons c rest ih =>
    intro hm hne
    by_cases hc : c = t ∧ c ≠ sp
    · simp only [anyChildIs, if_pos hc]
    · have hct : c ≠ t := by
        intro hect
        exact hc ⟨hect, by rw [hect]; exact hne⟩
      have hmr : t ∈ rest := by
        rcases List.mem_cons.mp hm with h1 | h1
        · exact absurd h1.symm hct
        · exact h1
      simp only [anyChildIs, if_neg hc]
      exact ih hmr hne

/-- C3 counterexample graph: `me` has two spouses; `tt` is the first
spouse's sibling and the second spouse's parent. -/
def Ginlaw : FamilyTreeData :=
  ⟨[("me", ⟨Sex.U, ["Fm1", "Fm2"], none⟩), ("s1", ⟨Sex.F, ["Fm1"], some "F3"⟩),
    ("s2", ⟨Sex.F, ["Fm2"], some "F4"⟩), ("tt", ⟨Sex.M, ["F4"], some "F3"⟩),
    ("gp", ⟨Sex.M, ["F3"], none⟩)],
   [("Fm1", ⟨some "me", some "s1", []⟩), ("Fm2", ⟨some "me", some "s2", []⟩),
    ("F3", ⟨some "gp", none, ["s1", "tt"]⟩), ("F4", ⟨some "tt", none, ["s2"]⟩)]⟩

/-- C3 is false as stated: on `Ginlaw`, case (a) (spouse's parent)
matches via the second spouse `s2` — `tt` is `F4`'s husband and `F4` is
`s2`'s child family — yet the engine returns the sibling-in-law result
found via the first spouse `s1`, not the parent-in-law one. -/
theorem inlaw_order_counterexample :
    lookupFam Ginlaw "Fm2" = some ⟨some "me", some "s2", []⟩ ∧
    spouseInFamily "me" ⟨some "me", some "s2", []⟩ = some "s2" ∧
    lookupInd Ginlaw "s2" = some ⟨Sex.F, ["Fm2"], some "F4"⟩ ∧
    lookupFam Ginlaw "F4" = some ⟨some "tt", none, ["s2"]⟩ ∧
    findRelationship Ginlaw "me" "tt" false =
      ⟨"me", "tt", [], RelationshipType.inLaw (RelationshipType.sibling false),
        "Brother-in-law"⟩ ∧
    (findRelationship Ginlaw "me" "tt" false).relationship ≠
      RelationshipType.inLaw (RelationshipType.parent 1 Lineage.direct) :=
  ⟨by rfl, by rfl, by rfl, by rfl, by rfl, by decide⟩

/-- C3 amended: the in-law scan is per spouse in `familyAsSpouse`
order, testing spouse's-parent then spouse's-sibling for each marriage
before moving on; so a sibling-in-law match via an earlier spouse wins
over a parent-in-law match via any later spouse. -/
theorem inLaw_per_spouse_order (g : FamilyTreeData) (f t : String) (fp : Individual)
    (fid : String) (rest : List String) (fam : Family) (s : String) (sp : Individual)
    (sfid : String) (spfam : Family) (tp : Individual)
    (hf : lookupInd g f = some fp)
    (hfas : fp.familyAsSpouse = fid :: rest)
    (hfam : lookupFam g fid = some fam)
    (hs : spouseInFamily f fam = some s)
    (hsp : lookupInd g s = some sp)
    (hsf : sp.familyAsChild = some sfid)
    (hspf : lookupFam g sfid = some spfam)
    (htp : lookupInd g t = some tp)
    (hnh : ¬(spfam.husband = some t ∨ spfam.wife = some t))
    (hsib : t ∈ spfam.children) (hts : t ≠ s) :
    checkInLawRelationship g f t =
      some ⟨f, t, [], RelationshipType.inLaw (RelationshipType.sibling false),
        siblingInLawLabel (some tp)⟩ := by
  have hloop : inLawSpouseLoop g f t (fid :: rest) =
      some ⟨f, t, [], RelationshipType.inLaw (RelationshipType.sibling false),
        siblingInLawLabel (some tp)⟩ := by
    simp only [inLawSpouseLoop, hfam, hs, hsp, hsf, hspf, htp]
    rw [if_neg hnh, if_pos (anyChildIs_true spfam.children hsib hts)]
  unfold checkInLawRelationship
  simp only [hf, hfas, hloop]

theorem inLaw_per_spouse_order_witness :
    (lookupInd Ginlaw "me" = some ⟨Sex.U, ["Fm1", "Fm2"], none⟩ ∧
      (⟨Sex.U, ["Fm1", "Fm2"], none⟩ : Individual).familyAsSpouse = "Fm1" :: ["Fm2"] ∧
      lookupFam Ginlaw "Fm1" = some ⟨some "me", some "s1", []⟩ ∧
      spouseInFamily "me" ⟨some "me", some "s1", []⟩ = some "s1" ∧
      lookupInd Ginlaw "s1" = some ⟨Sex.F, ["Fm1"], some "F3"⟩ ∧
      (⟨Sex.F, ["Fm1"], some "F3"⟩ : Individual).familyAsChild = some "F3" ∧
      lookupFam Ginlaw "F3" = some ⟨some "gp", none, ["s1", "tt"]⟩ ∧
      lookupInd Ginlaw "tt" = some ⟨Sex.M, ["F4"], some "F3"⟩ ∧
      ¬((⟨some "gp", none, ["s1", "tt"]⟩ : Family).husband = some "tt" ∨
        (⟨some "gp", none, ["s1", "tt"]⟩ : Family).wife = some "tt") ∧
      ("tt" : String) ∈ (⟨some "gp", none, ["s1", "tt"]⟩ : Family).children ∧
      ("tt" : String) ≠ "s1") ∧
    checkInLawRelationship Ginlaw "me" "tt" =
      some ⟨"me", "tt", [], RelationshipType.inLaw (RelationshipType.sibling false),
        siblingInLawLabel (some ⟨Sex.M, ["F4"], some "F3"⟩)⟩ :=
  ⟨⟨by rfl, by rfl, by rfl, by rfl, by rfl, by rfl, by rfl, by rfl, by decide, by decide,
      by decide⟩,
    inLaw_per_spouse_order Ginlaw "me" "tt" ⟨Sex.U, ["Fm1", "Fm2"], none⟩ "Fm1" ["Fm2"]
      ⟨some "me", some "s1", []⟩ "s1" ⟨Sex.F, ["Fm1"], some "F3"⟩ "F3"
      ⟨some "gp", none, ["s1", "tt"]⟩ ⟨Sex.M, ["F4"], some "F3"⟩
      (by rfl) (by rfl) (by rfl) (by rfl) (by rfl) (by rfl) (by rfl) (by rfl)
      (by decide) (by decide) (by decide)⟩

/-! ### C5: termination and the recursion guard -/

/-- C5: the ancestor walk's while loop needs no more than the computed
fuel on any graph, cyclic ones included — extra fuel never changes the
result, so the loop halts — and calling `findRelationship` with the
recursion guard set runs exactly the fallback-free body
`findRelationshipSkip`, which is also what the fallback itself invokes
for each spouse; the fallback therefore can never re-enter itself. -/
theorem findRelationship_terminates (g : FamilyTreeData) (p f t : String) (k : Nat) :
    ancestorsLoop g (ancFuel g p + k) [(p, 0)] [] = findAncestorsWithDepth g p ∧
    findRelationship g f t true = findRelationshipSkip g f t ∧
    checkSpouseBloodRelatives g f t =
      (match lookupInd g f with
       | none => none
       | some fp => spouseBloodLoop g f t fp.familyAsSpouse) :=
  ⟨findAncestorsWithDepth_stable g p k, rfl, rfl⟩

/-! ### C10: the step variants are unreachable -/

/-- No `step` constructor anywhere, and every parent/child carries the
`direct` lineage, recursively through `inLaw` wrappers. -/
def noStepRel : RelationshipType → Prop
  | RelationshipType.parent _ lin => lin = Lineage.direct
  | RelationshipType.child _ lin => lin = Lineage.direct
  | RelationshipType.inLaw base => noStepRel base
  | RelationshipType.step _ => False
  | _ => True

theorem noStep_spouseLoop (g : FamilyTreeData) (f t : String) :
    ∀ l r, spouseLoop g f t l = some r → r.relationship = RelationshipType.spouse := by
  intro l
  induction l with
  | nil => intro r hr; simp [spouseLoop] at hr
  | cons fid rest ih =>
    intro r hr
    cases hfam : lookupFam g fid with
    | none =>
      simp only [spouseLoop, hfam] at hr
      exact ih r hr
    | some fam =>
      by_cases hs : spouseInFamily f fam = some t
      · simp only [spouseLoop, hfam, if_pos hs, Option.some.injEq] at hr
        rw [← hr]
      · simp only [spouseLoop, hfam, if_neg hs] at hr
        exact ih r hr

theorem noStep_calcBlood (g : FamilyTreeData) (f t : String) (ca : CommonAncestor) :
    noStepRel (calculateBloodRelationship g f t ca).relationship := by
  unfold calculateBloodRelationship
  dsimp only
  split_ifs <;>
    simp [createAncestorRelation, createDescendantRelation, createCousinRelation, noStepRel]

theorem noStep_inLawSpouseLoop (g : FamilyTreeData) (f t : String) :
    ∀ l r, inLawSpouseLoop g f t l = some r → noStepRel r.relationship := by
  intro l
  induction l with
  | nil => intro r hr; simp [inLawSpouseLoop] at hr
  | cons fid rest ih =>
    intro r hr
    cases hfam : lookupFam g fid with
    | none => simp only [inLawSpouseLoop, hfam] at hr; exact ih r hr
    | some fam =>
      cases hs : spouseInFamily f fam with
      | none => simp only [inLawSpouseLoop, hfam, hs] at hr; exact ih r hr
      | some s =>
        cases hsp : lookupInd g s with
        | none => simp only [inLawSpouseLoop, hfam, hs, hsp] at hr; exact ih r hr
        | some sp =>
          cases hsf : sp.familyAsChild with
          | none => simp only [inLawSpouseLoop, hfam, hs, hsp, hsf] at hr; exact ih r hr
          | some sfid =>
            cases hspf : lookupFam g sfid with
            | none => simp only [inLawSpouseLoop, hfam, hs, hsp, hsf, hspf] at hr; exact ih r hr
            | some spfam =>
              cases htp : lookupInd g t with
              | none =>
                simp only [inLawSpouseLoop, hfam, hs, hsp, hsf, hspf, htp] at hr
                exact ih r hr
              | some tp =>
                simp only [inLawSpouseLoop, hfam, hs, hsp, hsf, hspf, htp] at hr
                by_cases hpar : spfam.husband = some t ∨ spfam.wife = some t
                · rw [if_pos hpar] at hr
                  rw [← Option.some.inj hr]
                  simp [noStepRel]
                · rw [if_neg hpar] at hr
                  by_cases hsib : anyChildIs t s spfam.children = true
                  · rw [if_pos hsib] at hr
                    rw [← Option.some.inj hr]
                    simp [noStepRel]
                  · rw [if_neg hsib] at hr
                    exact ih r hr

theorem noStep_checkInLaw (g : FamilyTreeData) (f t : String) :
    ∀ r, checkInLawRelationship g f t = some r → noStepRel r.relationship := by
  intro r hr
  unfold checkInLawRelationship at hr
  cases hf : lookupInd g f with
  | none => rw [hf] at hr; cases hr
  | some fp =>
    simp only [hf] at hr
    cases hloop : inLawSpouseLoop g f t fp.familyAsSpouse with
    | some r0 =>
      rw [hloop] at hr
      simp at hr
      rw [← hr]
      exact noStep_inLawSpouseLoop g f t fp.familyAsSpouse r0 hloop
    | none =>
      rw [hloop] at hr
      simp only [] at hr
      by_cases hsc : (match fp.familyAsChild with
          | none => false
          | some cfid =>
            match lookupFam g cfid with
            | none => false
            | some fromParentFamily => anySiblingSpouseIs g f t fromParentFamily.children) = true
      · rw [if_pos hsc] at hr
        simp at hr
        rw [← hr]
        simp [noStepRel]
      · rw [if_neg hsc] at hr
        by_cases hcl : childInLawLoop g t fp.familyAsSpouse = true
        · rw [if_pos hcl] at hr
          simp at hr
          rw [← hr]
          simp [noStepRel]
        · rw [if_neg hcl] at hr
          cases hr

theorem noStep_findRelationshipSkip (g : FamilyTreeData) (f t : String) :
    noStepRel (findRelationshipSkip g f t).relationship := by
  unfold findRelationshipSkip
  by_cases hft : f = t
  · simp [hft, selfResult, noStepRel]
  · rw [if_neg hft]
    cases hsp : checkSpouseRelationship g f t with
    | some r =>
      simp only [hsp]
      unfold checkSpouseRelationship at hsp
      cases hf : lookupInd g f with
      | none => rw [hf] at hsp; cases hsp
      | some fp =>
        rw [hf] at hsp
        rw [noStep_spouseLoop g f t fp.familyAsSpouse r hsp]
        simp [noStepRel]
    | none =>
      simp only [hsp]
      cases hnca : findNearestCommonAncestor (findAncestorsWithDepth g f)
          (findAncestorsWithDepth g t) with
      | some ca =>
        simp only [hnca]
        exact noStep_calcBlood g f t ca
      | none =>
        simp only [hnca]
        cases hil : checkInLawRelationship g f t with
        | some r =>
          simp only [hil]
          exact noStep_checkInLaw g f t r hil
        | none =>
          simp only [hil]
          simp [unknownResult, noStepRel]

/-- C10: no result of `findRelationship` — through either value of the
recursion guard, including results surfaced by the spouse fallback —
ever uses the `step` variant, and every parent/child result carries the
`direct` lineage. -/
theorem findRelationship_noStep (g : FamilyTreeData) (f t : String) (skip : Bool) :
    noStepRel (findRelationship g f t skip).relationship := by
  cases skip with
  | true => exact noStep_findRelationshipSkip g f t
  | false =>
    show noStepRel (findRelationshipFull g f t).relationship
    unfold findRelationshipFull
    by_cases hft : f = t
    · simp [hft, selfResult, noStepRel]
    · rw [if_neg hft]
      cases hsp : checkSpouseRelationship g f t with
      | some r =>
        simp only [hsp]
        unfold checkSpouseRelationship at hsp
        cases hf : lookupInd g f with
        | none => rw [hf] at hsp; cases hsp
        | some fp =>
          rw [hf] at hsp
          rw [noStep_spouseLoop g f t fp.familyAsSpouse r hsp]
          simp [noStepRel]
      | none =>
        simp only [hsp]
        cases hnca : findNearestCommonAncestor (findAncestorsWithDepth g f)
            (findAncestorsWithDepth g t) with
        | some ca =>
          simp only [hnca]
          exact noStep_calcBlood g f t ca
        | none =>
          simp only [hnca]
          cases hil : checkInLawRelationship g f t with
          | some r =>
            simp only [hil]
            exact noStep_checkInLaw g f t r hil
          | none =>
            simp only [hil]
            cases hsb : checkSpouseBloodRelatives g f t with
            | some r =>
              simp only [hsb]
              unfold checkSpouseBloodRelatives at hsb
              cases hf : lookupInd g f with
              | none => rw [hf] at hsb; cases hsb
              | some fp =>
                rw [hf] at hsb
                obtain ⟨fid, fam, s, _, _, _, _, hre⟩ :=
                  spouseBloodLoop_spec g f t fp.familyAsSpouse r hsb
                rw [hre]
                exact noStep_findRelationshipSkip g s t
            | none =>
              simp only [hsb]
              simp [unknownResult, noStepRel]

/-! ### C9: the path finder -/

/-- `reachAdjN g f x n`: `x` is reachable from `f` in exactly `n` hops
along `getConnectedPeople` edges. -/
def reachAdjN (g : FamilyTreeData) (f : String) : String → Nat → Prop
  | x, 0 => x = f
  | x, n + 1 => ∃ y, reachAdjN g f y n ∧ x ∈ getConnectedPeople g y

/-- Adjacent consecutive entries along `getConnectedPeople`. -/
def validChain (g : FamilyTreeData) : List String → Prop
  | [] => False
  | [_] => True
  | x :: y :: rest => y ∈ getConnectedPeople g x ∧ validChain g (y :: rest)

/-- A chain from `f` to `x`: nonempty, starts at `f`, ends at `x`,
consecutive entries adjacent. -/
def chainTo (g : FamilyTreeData) (f x : String) (l : List String) : Prop :=
  l.head? = some f ∧ l.getLast? = some x ∧ validChain g l

theorem validChain_append_one {g : FamilyTreeData} {u c : String} :
    ∀ l, validChain g l → l.getLast? = some u → c ∈ getConnectedPeople g u →
      validChain g (l ++ [c]) := by
  intro l
  induction l with
  | nil => intro h; simp [validChain] at h
  | cons x rest ih =>
    intro hv hl hc
    cases rest with
    | nil =>
      simp at hl
      subst hl
      exact ⟨hc, trivial⟩
    | cons y rest2 =>
      obtain ⟨h1, h2⟩ := hv
      rw [List.getLast?_cons_cons] at hl
      exact ⟨h1, ih h2 hl hc⟩

theorem chain_extend {g : FamilyTreeData} {f u c : String} {l : List String}
    (h : chainTo g f u l) (hc : c ∈ getConnectedPeople g u) :
    chainTo g f c (l ++ [c]) := by
  obtain ⟨h1, h2, h3⟩ := h
  refine ⟨?_, by simp, validChain_append_one l h3 h2 hc⟩
  cases l with
  | nil => simp at h1
  | cons x rest => simpa using h1

theorem chain_reach_aux (g : FamilyTreeData) (f : String) :
    ∀ rest y n, validChain g (y :: rest) → reachAdjN g f y n →
      ∀ x, (y :: rest).getLast? = some x → reachAdjN g f x (n + rest.length) := by
  intro rest
  induction rest with
  | nil =>
    intro y n _ hr x hx
    simp at hx
    subst hx
    simpa using hr
  | cons z rest2 ih =>
    intro y n hv hr x hx
    obtain ⟨h1, h2⟩ := hv
    rw [List.getLast?_cons_cons] at hx
    have hz : reachAdjN g f z (n + 1) := ⟨y, hr, h1⟩
    have := ih z (n + 1) h2 hz x hx
    have harith : n + 1 + rest2.length = n + (z :: rest2).length := by
      simp [List.length_cons]
      omega
    rwa [harith] at this

theorem chain_reach {g : FamilyTreeData} {f x : String} {l : List String}
    (h : chainTo g f x l) : reachAdjN g f x (l.length - 1) := by
  obtain ⟨h1, h2, h3⟩ := h
  cases l with
  | nil => simp at h1
  | cons y rest =>
    have hy : y = f := by simpa using h1
    have h0 : reachAdjN g f y 0 := hy
    have h4 := chain_reach_aux g f rest y 0 h3 h0 x h2
    simpa using h4

/-- Reachability whose intermediate nodes avoid `t`. -/
def reachNT (g : FamilyTreeData) (f t : String) : String → Nat → Prop
  | x, 0 => x = f
  | x, n + 1 => ∃ y, reachNT g f t y n ∧ y ≠ t ∧ x ∈ getConnectedPeople g y

theorem reach_cutT {g : FamilyTreeData} {f t : String} :
    ∀ n x, reachAdjN g f x n →
      (∃ m, m ≤ n ∧ reachNT g f t x m) ∨ (∃ m, m ≤ n ∧ reachNT g f t t m) := by
  intro n
  induction n with
  | zero =>
    intro x hx
    exact Or.inl ⟨0, Nat.le_refl 0, hx⟩
  | succ n ih =>
    intro x hx
    obtain ⟨y, hy, hconn⟩ := hx
    rcases ih y hy with ⟨m, hm, hNT⟩ | ⟨m, hm, hNT⟩
    · by_cases hyt : y = t
      · subst hyt
        exact Or.inr ⟨m, by omega, hNT⟩
      · exact Or.inl ⟨m + 1, by omega, ⟨y, hNT, hyt, hconn⟩⟩
    · exact Or.inr ⟨m, by omega, hNT⟩

theorem reach_to_reachNT {g : FamilyTreeData} {f t : String} {n : Nat}
    (h : reachAdjN g f t n) : ∃ m, m ≤ n ∧ reachNT g f t t m := by
  rcases reach_cutT n t h with ⟨m, hm, hNT⟩ | h1
  · exact ⟨m, hm, hNT⟩
  · exact h1

theorem pathLoop_nil (g : FamilyTreeData) (t : String) (fuel : Nat) (vis : List String) :
    pathLoop g t fuel [] vis = [] := by
  cases fuel <;> rfl

theorem conn_sub_pathCands (g : FamilyTreeData) (f u : String) :
    ∀ c ∈ getConnectedPeople g u, c ∈ pathCands g f := by
  intro c hc
  unfold getConnectedPeople at hc
  cases hind : lookupInd g u with
  | none => rw [hind] at hc; simp at hc
  | some person =>
    simp only [hind] at hc
    have hfam_mem : ∀ (fid : String) (fam : Family), lookupFam g fid = some fam →
        ∀ x, (x ∈ fam.husband.toList ∨ x ∈ fam.wife.toList ∨ x ∈ fam.children) →
          x ∈ pathCands g f := by
      intro fid fam hfam x hx
      have hmem : (fid, fam) ∈ g.families := lookupA_mem hfam
      unfold pathCands
      refine List.mem_cons_of_mem _ (List.mem_flatMap.mpr ⟨(fid, fam), hmem, ?_⟩)
      rcases hx with h | h | h
      · exact List.mem_append_left _ (List.mem_append_left _ h)
      · exact List.mem_append_left _ (List.mem_append_right _ h)
      · exact List.mem_append_right _ h
    rcases List.mem_append.mp hc with h1 | h1
    · cases hfac : person.familyAsChild with
      | none => simp [hfac] at h1
      | some fid =>
        simp only [hfac] at h1
        cases hfam : lookupFam g fid with
        | none => simp [hfam] at h1
        | some fam =>
          simp only [hfam] at h1
          apply hfam_mem fid fam hfam c
          rcases List.mem_append.mp h1 with h2 | h2
          · rcases List.mem_append.mp h2 with h3 | h3
            · exact Or.inl h3
            · exact Or.inr (Or.inl h3)
          · exact Or.inr (Or.inr (List.mem_of_mem_filter h2))
    · obtain ⟨fid, hfid, hcf⟩ := List.mem_flatMap.mp h1
      cases hfam : lookupFam g fid with
      | none => simp [hfam] at hcf
      | some fam =>
        simp only [hfam] at hcf
        apply hfam_mem fid fam hfam c
        rcases List.mem_append.mp hcf with h2 | h2
        · rcases List.mem_append.mp h2 with h3 | h3
          · exact Or.inl (List.mem_of_mem_filter h3)
          · exact Or.inr (Or.inl (List.mem_of_mem_filter h3))
        · exact Or.inr (Or.inr h2)

theorem sum_map_filter_le (l : List String) (p : String → Bool) (fm : String → Nat) :
    ((l.filter p).map fm).sum ≤ (l.map fm).sum := by
  induction l with
  | nil => simp
  | cons b rest ih =>
    by_cases hb : p b = true
    · simp only [List.filter_cons, hb, if_pos, List.map_cons, List.sum_cons]
      omega
    · simp only [List.filter_cons, hb, Bool.false_eq_true, if_neg, not_false_iff,
        List.map_cons, List.sum_cons]
      omega

theorem sum_map_filter_ne (l : List String) (a : String) (fm : String → Nat) (h : a ∈ l) :
    ((l.filter (fun x => x ≠ a)).map fm).sum + fm a ≤ (l.map fm).sum := by
  induction l with
  | nil => simp at h
  | cons b rest ih =>
    by_cases hb : b = a
    · subst hb
      have : (decide (b ≠ b)) = false := by simp
      simp only [List.filter_cons, this, Bool.false_eq_true, if_neg, not_false_iff,
        List.map_cons, List.sum_cons]
      have := sum_map_filter_le rest (fun x => x ≠ b) fm
      omega
    · have ha : a ∈ rest := by
        rcases List.mem_cons.mp h with h1 | h1
        · exact absurd h1.symm hb
        · exact h1
      have hbd : (decide (b ≠ a)) = true := by simp [hb]
      simp only [List.filter_cons, hbd, if_pos, List.map_cons, List.sum_cons]
      have := ih ha
      omega

/-- Remaining work of the path BFS: one unit plus the out-degree for
every not-yet-visited candidate. -/
def pathMissing (g : FamilyTreeData) (f : String) (visited : List String) : Nat :=
  (((pathCands g f).filter (fun c => c ∉ visited)).map
    (fun c => 1 + (getConnectedPeople g c).length)).sum

/-- Decreasing measure of the path BFS. -/
def pathMeasure (g : FamilyTreeData) (f : String) (q : List (String × List String))
    (visited : List String) : Nat :=
  q.length + pathMissing g f visited

theorem pathMissing_decrease (g : FamilyTreeData) (f u : String) (vis : List String)
    (hu : u ∈ pathCands g f) (hnv : u ∉ vis) :
    pathMissing g f (u :: vis) + (1 + (getConnectedPeople g u).length) ≤
      pathMissing g f vis := by
  unfold pathMissing
  have hpt : ∀ c : String,
      (decide (c ∉ u :: vis)) = ((decide (c ≠ u)) && (decide (c ∉ vis))) := by
    intro c
    by_cases h1 : c = u <;> by_cases h2 : c ∈ vis <;> simp [h1, h2]
  have hflt : (pathCands g f).filter (fun c => decide (c ∉ u :: vis)) =
      ((pathCands g f).filter (fun c => decide (c ∉ vis))).filter
        (fun c => decide (c ≠ u)) := by
    rw [List.filter_filter]
    exact List.filter_congr fun c _ => hpt c
  rw [hflt]
  apply sum_map_filter_ne
  exact List.mem_filter.mpr ⟨hu, by simpa using hnv⟩

theorem mem_pathPush {lst path : List String} {z : String} {pz : List String} :
    (z, pz) ∈ lst.map (fun c => (c, path ++ [c])) ↔ z ∈ lst ∧ pz = path ++ [z] := by
  constructor
  · intro h
    obtain ⟨a, ha, hae⟩ := List.mem_map.mp h
    obtain ⟨h1, h2⟩ := Prod.mk.injEq .. ▸ hae
    subst h1
    exact ⟨ha, h2.symm⟩
  · rintro ⟨hz, rfl⟩
    exact List.mem_map.mpr ⟨z, hz, rfl⟩

theorem pairwise_pathPush (lst path : List String) :
    (lst.map (fun c => (c, path ++ [c]))).Pairwise
      (fun a b : String × List String => a.2.length ≤ b.2.length) := by
  induction lst with
  | nil => simp
  | cons x rest ih =>
    rw [List.map_cons, List.pairwise_cons]
    refine ⟨?_, ih⟩
    intro b hb
    obtain ⟨_, hb2⟩ := mem_pathPush.mp (show (b.1, b.2) ∈ _ from hb)
    simp [hb2]

theorem pathPush_len {lst path : List String} :
    ∀ e ∈ lst.map (fun c => (c, path ++ [c])), e.2.length = path.length + 1 := by
  intro e he
  obtain ⟨_, hb2⟩ := mem_pathPush.mp (show (e.1, e.2) ∈ _ from he)
  simp [hb2]

/-- Loop invariant of the path BFS, against a ghost assignment `D` of
pop-time path lengths to visited ids. -/
structure PathInv (g : FamilyTreeData) (f t : String) (D : String → Nat)
    (q : List (String × List String)) (vis : List String) : Prop where
  chainQ : ∀ e ∈ q, chainTo g f e.1 e.2
  neQ : ∀ e ∈ q, e.1 ≠ t
  sortQ : q.Pairwise (fun a b => a.2.length ≤ b.2.length)
  spreadQ : ∀ a ∈ q, ∀ b ∈ q, a.2.length ≤ b.2.length + 1
  visLe : ∀ v ∈ vis, ∀ e ∈ q, D v ≤ e.2.length
  visNbr : ∀ v ∈ vis, ∀ c ∈ getConnectedPeople g v,
    (c ∈ vis ∧ D c ≤ D v + 1) ∨ (∃ pth, (c, pth) ∈ q ∧ pth.length ≤ D v + 1)
  visNoT : ∀ v ∈ vis, t ∉ getConnectedPeople g v
  startI : (f ∈ vis ∧ D f ≤ 1) ∨ (vis = [] ∧ q = [(f, [f])])
  candQ : ∀ e ∈ q, e.1 ∈ pathCands g f

theorem phi_bound {g : FamilyTreeData} {f t : String} {D : String → Nat}
    {q : List (String × List String)} {vis : List String}
    (inv : PathInv g f t D q vis) :
    ∀ k x, reachNT g f t x k →
      x = t ∨ (x ∈ vis ∧ D x ≤ k + 1) ∨
        (∃ z pth, (z, pth) ∈ q ∧ pth.length ≤ k + 1) := by
  intro k
  induction k with
  | zero =>
    intro x hx
    have hx' : x = f := hx
    subst hx'
    rcases inv.startI with ⟨h1, h2⟩ | ⟨_, h2⟩
    · exact Or.inr (Or.inl ⟨h1, by omega⟩)
    · refine Or.inr (Or.inr ⟨x, [x], ?_, by simp⟩)
      rw [h2]
      exact List.mem_cons_self _ _
  | succ k ih =>
    intro x hx
    obtain ⟨y, hy, hyt, hconn⟩ := hx
    rcases ih y hy with h | ⟨hyv, hDy⟩ | ⟨z, pth, hm, hl⟩
    · exact absurd h hyt
    · rcases inv.visNbr y hyv x hconn with ⟨hxv, hDx⟩ | ⟨pth, hm, hl⟩
      · exact Or.inr (Or.inl ⟨hxv, by omega⟩)
      · exact Or.inr (Or.inr ⟨x, pth, hm, by omega⟩)
    · exact Or.inr (Or.inr ⟨z, pth, hm, by omega⟩)

theorem pathInv_noReach {g : FamilyTreeData} {f t : String} {D : String → Nat}
    {vis : List String} (hne : f ≠ t)
    (inv : PathInv g f t D [] vis) : ∀ m, ¬ reachAdjN g f t m := by
  intro m hm
  obtain ⟨m', _, hNT⟩ := reach_to_reachNT hm
  cases m' with
  | zero => exact hne (show t = f from hNT).symm
  | succ n =>
    obtain ⟨y, hy, hyt, hconn⟩ := hNT
    rcases phi_bound inv n y hy with h | ⟨hyv, _⟩ | ⟨z, pth, hmz, _⟩
    · exact hyt h
    · exact inv.visNoT y hyv hconn
    · simp at hmz

theorem pathLoop_main (g : FamilyTreeData) (f t : String) (hne : f ≠ t) :
    ∀ fuel q vis (D : String → Nat), pathMeasure g f q vis ≤ fuel →
      PathInv g f t D q vis →
      (pathLoop g t fuel q vis = [] ∧ ∀ m, ¬ reachAdjN g f t m) ∨
      (∃ p, pathLoop g t fuel q vis = p ++ [t] ∧ chainTo g f t (p ++ [t]) ∧
        ∀ k, reachAdjN g f t k → (p ++ [t]).length ≤ k + 1) := by
  intro fuel
  induction fuel with
  | zero =>
    intro q vis D hM inv
    have hq : q = [] := by
      unfold pathMeasure at hM
      exact List.length_eq_zero.mp (by omega)
    subst hq
    rw [pathLoop_nil]
    exact Or.inl ⟨rfl, pathInv_noReach hne inv⟩
  | succ fuel ih =>
    intro q vis D hM inv
    match q with
    | [] =>
      rw [pathLoop_nil]
      exact Or.inl ⟨rfl, pathInv_noReach hne inv⟩
    | (id, path) :: rest =>
      have hHead : ((id, path) : String × List String) ∈ (id, path) :: rest :=
        List.mem_cons_self _ _
      have hsort := List.pairwise_cons.mp inv.sortQ
      by_cases hv : id ∈ vis
      · rw [show pathLoop g t (fuel + 1) ((id, path) :: rest) vis =
            pathLoop g t fuel rest vis from by
          simp only [pathLoop, if_pos hv]]
        apply ih rest vis D
        · unfold pathMeasure at hM ⊢
          simp only [List.length_cons] at hM
          omega
        · refine ⟨?_, ?_, hsort.2, ?_, ?_, ?_, inv.visNoT, ?_, ?_⟩
          · intro e he
            exact inv.chainQ e (List.mem_cons_of_mem _ he)
          · intro e he
            exact inv.neQ e (List.mem_cons_of_mem _ he)
          · intro a ha b hb
            exact inv.spreadQ a (List.mem_cons_of_mem _ ha) b (List.mem_cons_of_mem _ hb)
          · intro v hvm e he
            exact inv.visLe v hvm e (List.mem_cons_of_mem _ he)
          · intro v hvm c hc
            rcases inv.visNbr v hvm c hc with ⟨hcv, hDc⟩ | ⟨pth, hmp, hlp⟩
            · exact Or.inl ⟨hcv, hDc⟩
            · rcases List.mem_cons.mp hmp with h1 | h1
              · have hcid : c = id := congrArg Prod.fst h1
                have hpp : pth = path := congrArg Prod.snd h1
                refine Or.inl ⟨by rw [hcid]; exact hv, ?_⟩
                have hDi : D c ≤ path.length := by
                  simpa using inv.visLe c (by rw [hcid]; exact hv) (id, path) hHead
                rw [hpp] at hlp
                omega
              · exact Or.inr ⟨pth, h1, hlp⟩
          · rcases inv.startI with h | ⟨h1, _⟩
            · exact Or.inl h
            · exact absurd (h1 ▸ hv) (List.not_mem_nil id)
          · intro e he
            exact inv.candQ e (List.mem_cons_of_mem _ he)
      · by_cases ht : t ∈ getConnectedPeople g id
        · rw [show pathLoop g t (fuel + 1) ((id, path) :: rest) vis = path ++ [t] from by
            simp only [pathLoop, if_neg hv]
            rw [if_pos ht]]
          right
          refine ⟨path, rfl, chain_extend (inv.chainQ (id, path) hHead) ht, ?_⟩
          intro k hk
          obtain ⟨m', hm', hNT⟩ := reach_to_reachNT hk
          cases m' with
          | zero => exact absurd (show t = f from hNT).symm hne
          | succ n =>
            obtain ⟨y, hy, hyt, hconn⟩ := hNT
            rcases phi_bound inv n y hy with h | ⟨hyv, _⟩ | ⟨z, pth, hmz, hlz⟩
            · exact absurd h hyt
            · exact absurd hconn (inv.visNoT y hyv)
            · have hplen : path.length ≤ pth.length := by
                rcases List.mem_cons.mp hmz with h1 | h1
                · have hpp : pth = path := congrArg Prod.snd h1
                  rw [hpp]
                · exact hsort.1 (z, pth) h1
              have hlen2 : (path ++ [t]).length = path.length + 1 := by simp
              omega
        · rw [show pathLoop g t (fuel + 1) ((id, path) :: rest) vis =
              pathLoop g t fuel
                (rest ++ ((getConnectedPeople g id).filter (fun c => c ∉ id :: vis)).map
                  (fun c => (c, path ++ [c]))) (id :: vis) from by
            simp only [pathLoop, if_neg hv]
            rw [if_neg ht]]
          have hidc : id ∈ pathCands g f := inv.candQ (id, path) hHead
          have hchainHead : chainTo g f id path := inv.chainQ (id, path) hHead
          have hRestGe : ∀ e ∈ rest, path.length ≤ e.2.length := fun e he => hsort.1 e he
          have hRestLe : ∀ e ∈ rest, e.2.length ≤ path.length + 1 := fun e he => by
            simpa using inv.spreadQ e (List.mem_cons_of_mem _ he) (id, path) hHead
          have hPushMem : ∀ e : String × List String,
              e ∈ ((getConnectedPeople g id).filter (fun c => c ∉ id :: vis)).map
                (fun c => (c, path ++ [c])) →
              e.1 ∈ getConnectedPeople g id ∧ e.1 ∉ id :: vis ∧
                e.2 = path ++ [e.1] := by
            intro e he
            obtain ⟨h1, h2⟩ := mem_pathPush.mp (show (e.1, e.2) ∈ _ from he)
            refine ⟨List.mem_of_mem_filter h1, ?_, h2⟩
            have := List.of_mem_filter h1
            simpa using this
          have hPushLen : ∀ e ∈ ((getConnectedPeople g id).filter
              (fun c => c ∉ id :: vis)).map (fun c => (c, path ++ [c])),
              e.2.length = path.length + 1 := pathPush_len
          apply ih _ _ (fun x => if x = id then path.length else D x)
          · have hdec := pathMissing_decrease g f id vis hidc hv
            have hplen : (((getConnectedPeople g id).filter (fun c => c ∉ id :: vis)).map
                (fun c => (c, path ++ [c]))).length ≤ (getConnectedPeople g id).length := by
              rw [List.length_map]
              exact List.length_filter_le _ _
            unfold pathMeasure at hM ⊢
            simp only [List.length_append, List.length_cons] at hM ⊢
            omega
          · refine ⟨?_, ?_, ?_, ?_, ?_, ?_, ?_, ?_, ?_⟩
            · intro e he
              rcases List.mem_append.mp he with h1 | h1
              · exact inv.chainQ e (List.mem_cons_of_mem _ h1)
              · obtain ⟨hc1, _, hc3⟩ := hPushMem e h1
                have : chainTo g f e.1 (path ++ [e.1]) := chain_extend hchainHead hc1
                have he2 : e = (e.1, e.2) := rfl
                rw [he2, hc3]
                exact this
            · intro e he
              rcases List.mem_append.mp he with h1 | h1
              · exact inv.neQ e (List.mem_cons_of_mem _ h1)
              · obtain ⟨hc1, _, _⟩ := hPushMem e h1
                intro hct
                rw [hct] at hc1
                exact ht hc1
            · rw [List.pairwise_append]
              refine ⟨hsort.2, pairwise_pathPush _ _, ?_⟩
              intro a ha b hb
              have := hPushLen b hb
              have := hRestLe a ha
              omega
            · intro a ha b hb
              rcases List.mem_append.mp ha with ha1 | ha1 <;>
                rcases List.mem_append.mp hb with hb1 | hb1
              · exact inv.spreadQ a (List.mem_cons_of_mem _ ha1) b (List.mem_cons_of_mem _ hb1)
              · have := hPushLen b hb1
                have := hRestLe a ha1
                omega
              · have := hPushLen a ha1
                have := hRestGe b hb1
                omega
              · have := hPushLen a ha1
                have := hPushLen b hb1
                omega
            · intro v hvm e he
              rcases List.mem_cons.mp hvm with hvid | hvv
              · rw [if_pos hvid]
                rcases List.mem_append.mp he with h1 | h1
                · exact hRestGe e h1
                · have := hPushLen e h1
                  omega
              · have hvne : v ≠ id := by
                  intro hvi
                  rw [hvi] at hvv
                  exact hv hvv
                rw [if_neg hvne]
                rcases List.mem_append.mp he with h1 | h1
                · exact inv.visLe v hvv e (List.mem_cons_of_mem _ h1)
                · have hDv : D v ≤ path.length := by
                    simpa using inv.visLe v hvv (id, path) hHead
                  have := hPushLen e h1
                  omega
            · intro v hvm c hc
              rcases List.mem_cons.mp hvm with hvid | hvv
              · rw [hvid] at hc
                by_cases hcv : c ∈ id :: vis
                · left
                  refine ⟨hcv, ?_⟩
                  rcases List.mem_cons.mp hcv with hcid | hcvv
                  · rw [hcid, hvid, if_pos rfl]
                    omega
                  · have hcne : c ≠ id := by
                      intro hci
                      rw [hci] at hcvv
                      exact hv hcvv
                    rw [if_neg hcne, hvid, if_pos rfl]
                    have hDc : D c ≤ path.length := by
                      simpa using inv.visLe c hcvv (id, path) hHead
                    omega
                · right
                  refine ⟨path ++ [c], ?_, ?_⟩
                  · apply List.mem_append_right
                    exact mem_pathPush.mpr ⟨List.mem_filter.mpr ⟨hc, by simpa using hcv⟩, rfl⟩
                  · rw [hvid, if_pos rfl]
                    simp
              · have hvne : v ≠ id := by
                  intro hvi
                  rw [hvi] at hvv
                  exact hv hvv
                rcases inv.visNbr v hvv c hc with ⟨hcv, hDc⟩ | ⟨pth, hmp, hlp⟩
                · left
                  refine ⟨List.mem_cons_of_mem _ hcv, ?_⟩
                  by_cases hcid : c = id
                  · rw [hcid] at hcv
                    exact absurd hcv hv
                  · rw [if_neg hcid, if_neg hvne]
                    exact hDc
                · rcases List.mem_cons.mp hmp with h1 | h1
                  · have hcid : c = id := congrArg Prod.fst h1
                    have hpp : pth = path := congrArg Prod.snd h1
                    left
                    refine ⟨by rw [hcid]; exact List.mem_cons_self _ _, ?_⟩
                    rw [hcid, if_pos rfl, if_neg hvne]
                    rw [hpp] at hlp
                    exact hlp
                  · right
                    refine ⟨pth, List.mem_append_left _ h1, ?_⟩
                    rw [if_neg hvne]
                    exact hlp
            · intro v hvm
              rcases List.mem_cons.mp hvm with hvid | hvv
              · rw [hvid]
                exact ht
              · exact inv.visNoT v hvv
            · rcases inv.startI with ⟨h1, h2⟩ | ⟨h1, h2⟩
              · left
                refine ⟨List.mem_cons_of_mem _ h1, ?_⟩
                have hfne : f ≠ id := by
                  intro hfi
                  rw [hfi] at h1
                  exact hv h1
                rw [if_neg hfne]
                exact h2
              · have hq2 := List.cons.injEq .. ▸ h2
                simp at hq2
                obtain ⟨⟨hq2a, hq2b⟩, _⟩ := hq2
                left
                refine ⟨by rw [hq2a]; exact List.mem_cons_self _ _, ?_⟩
                rw [hq2a, if_pos rfl, hq2b]
                simp
            · intro e he
              rcases List.mem_append.mp he with h1 | h1
              · exact inv.candQ e (List.mem_cons_of_mem _ h1)
              · obtain ⟨hc1, _, _⟩ := hPushMem e h1
                exact conn_sub_pathCands g f id e.1 hc1

/-- C9: `findRelationshipPath` returns `[fromId]` on equal ids;
otherwise, when `toId` is reachable along `getConnectedPeople`
adjacency it returns a path starting at `fromId`, ending at `toId`,
with adjacent consecutive entries and minimal length; and the result
is the empty list exactly when `toId` is unreachable. -/
theorem findRelationshipPath_correct (g : FamilyTreeData) (f t : String) :
    (f = t → findRelationshipPath g f t = [f]) ∧
    (f ≠ t →
      (findRelationshipPath g f t = [] ↔ ∀ m, ¬ reachAdjN g f t m) ∧
      (∀ n, reachAdjN g f t n →
        ∃ p, findRelationshipPath g f t = p ++ [t] ∧
          chainTo g f t (p ++ [t]) ∧ (p ++ [t]).length ≤ n + 1 ∧
          (∀ k, reachAdjN g f t k → (p ++ [t]).length ≤ k + 1) ∧
          reachAdjN g f t ((p ++ [t]).length - 1))) := by
  constructor
  · intro hft
    simp [findRelationshipPath, hft]
  · intro hne
    have hM0 : pathMeasure g f [(f, [f])] [] ≤ pathFuel g f := by
      unfold pathMeasure pathFuel pathMissing
      have := sum_map_filter_le (pathCands g f) (fun c => decide (c ∉ ([] : List String)))
        (fun c => 1 + (getConnectedPeople g c).length)
      simp only [List.length_cons, List.length_nil]
      omega
    have hInv0 : PathInv g f t (fun _ => 0) [(f, [f])] [] := by
      refine ⟨?_, ?_, List.pairwise_singleton _ _, ?_, ?_, ?_, ?_, Or.inr ⟨rfl, rfl⟩, ?_⟩
      · intro e he
        simp at he
        rw [show e = (f, [f]) from he]
        exact ⟨rfl, rfl, trivial⟩
      · intro e he
        simp at he
        rw [show e = (f, [f]) from he]
        exact hne
      · intro a ha b hb
        simp at ha hb
        rw [ha, hb]
        simp
      · intro v hv
        simp at hv
      · intro v hv
        simp at hv
      · intro v hv
        simp at hv
      · intro e he
        simp at he
        rw [show e = (f, [f]) from he]
        exact List.mem_cons_self _ _
    have hmain := pathLoop_main g f t hne (pathFuel g f) [(f, [f])] [] (fun _ => 0) hM0 hInv0
    have hdef : findRelationshipPath g f t = pathLoop g t (pathFuel g f) [(f, [f])] [] := by
      simp [findRelationshipPath, hne]
    constructor
    · constructor
      · intro hempty m hr
        rcases hmain with ⟨_, h2⟩ | ⟨p, h1, _, _⟩
        · exact h2 m hr
        · rw [hdef, h1] at hempty
          simp at hempty
      · intro hunreach
        rcases hmain with ⟨h1, _⟩ | ⟨p, _, hch, _⟩
        · rw [hdef, h1]
        · exact absurd (chain_reach hch) (hunreach _)
    · intro n hr
      rcases hmain with ⟨_, h2⟩ | ⟨p, h1, hch, hmin⟩
      · exact absurd hr (h2 n)
      · exact ⟨p, by rw [hdef, h1], hch, hmin n hr, hmin, chain_reach hch⟩

theorem findRelationshipPath_correct_witness :
    (("I3" : String) ≠ "I2" ∧ reachAdjN Gsib "I3" "I2" 1) ∧
    (∃ p, findRelationshipPath Gsib "I3" "I2" = p ++ ["I2"] ∧
      chainTo Gsib "I3" "I2" (p ++ ["I2"]) ∧ (p ++ ["I2"]).length ≤ 1 + 1 ∧
      (∀ k, reachAdjN Gsib "I3" "I2" k → (p ++ ["I2"]).length ≤ k + 1) ∧
      reachAdjN Gsib "I3" "I2" ((p ++ ["I2"]).length - 1)) :=
  ⟨⟨by decide, ⟨"I3", rfl, by decide⟩⟩,
    ((findRelationshipPath_correct Gsib "I3" "I2").2 (by decide)).2 1 ⟨"I3", rfl, by decide⟩⟩

end FamilyTree
